import Mathlib

/-!
A shallow embedding of the piecewise-linear curve library (`mod.ts`).

JavaScript numbers are modelled as extended rationals (`ENum`): NaN, the two
infinities, and exact finite values.  Arithmetic mirrors IEEE-754 double
semantics on those values (finite arithmetic is exact rational arithmetic;
the sign of zero is not modelled, as none of the library's code paths can
observe it).  Points are records exposing the two selected coordinates plus
a list of extra fields, so that field-dropping behaviour is observable.
-/

namespace PWL

/-- JavaScript number values as used by the library: NaN, the infinities and
finite values, the latter modelled exactly as rationals. -/
inductive ENum where
  | nan : ENum
  | ninf : ENum
  | pinf : ENum
  | fin : ℚ → ENum
deriving DecidableEq

/-- IEEE-style subtraction on `ENum` (JavaScript `a - b`). -/
def esub : ENum → ENum → ENum
  | .nan, _ => .nan
  | _, .nan => .nan
  | .ninf, .ninf => .nan
  | .ninf, _ => .ninf
  | .pinf, .pinf => .nan
  | .pinf, _ => .pinf
  | .fin _, .pinf => .ninf
  | .fin _, .ninf => .pinf
  | .fin a, .fin b => .fin (a - b)

/-- IEEE-style addition on `ENum` (JavaScript `a + b`). -/
def eadd : ENum → ENum → ENum
  | .nan, _ => .nan
  | _, .nan => .nan
  | .pinf, .ninf => .nan
  | .ninf, .pinf => .nan
  | .pinf, _ => .pinf
  | .ninf, _ => .ninf
  | .fin _, .pinf => .pinf
  | .fin _, .ninf => .ninf
  | .fin a, .fin b => .fin (a + b)

/-- IEEE-style multiplication on `ENum` (JavaScript `a * b`). -/
def emul : ENum → ENum → ENum
  | .nan, _ => .nan
  | _, .nan => .nan
  | .pinf, .pinf => .pinf
  | .pinf, .ninf => .ninf
  | .ninf, .pinf => .ninf
  | .ninf, .ninf => .pinf
  | .pinf, .fin b => if b = 0 then .nan else if 0 < b then .pinf else .ninf
  | .ninf, .fin b => if b = 0 then .nan else if 0 < b then .ninf else .pinf
  | .fin a, .pinf => if a = 0 then .nan else if 0 < a then .pinf else .ninf
  | .fin a, .ninf => if a = 0 then .nan else if 0 < a then .ninf else .pinf
  | .fin a, .fin b => .fin (a * b)

/-- IEEE-style division on `ENum` (JavaScript `a / b`; division by the
unsigned zero follows the `+0` convention, which is the only zero the
library can produce). -/
def ediv : ENum → ENum → ENum
  | .nan, _ => .nan
  | _, .nan => .nan
  | .ninf, .ninf => .nan
  | .ninf, .pinf => .nan
  | .pinf, .ninf => .nan
  | .pinf, .pinf => .nan
  | .pinf, .fin b => if b < 0 then .ninf else .pinf
  | .ninf, .fin b => if b < 0 then .pinf else .ninf
  | .fin _, .pinf => .fin 0
  | .fin _, .ninf => .fin 0
  | .fin a, .fin b =>
    if b = 0 then (if a = 0 then .nan else if 0 < a then .pinf else .ninf)
    else .fin (a / b)

/-- JavaScript `Math.min` on `ENum` (NaN-propagating). -/
def emin : ENum → ENum → ENum
  | .nan, _ => .nan
  | _, .nan => .nan
  | .ninf, _ => .ninf
  | _, .ninf => .ninf
  | .pinf, b => b
  | a, .pinf => a
  | .fin a, .fin b => .fin (min a b)

/-- JavaScript strict equality `===` on `ENum` (false on NaN). -/
def eeq : ENum → ENum → Bool
  | .nan, _ => false
  | _, .nan => false
  | .ninf, .ninf => true
  | .pinf, .pinf => true
  | .fin a, .fin b => decide (a = b)
  | _, _ => false

/-- JavaScript `<` on `ENum` (false whenever NaN is involved). -/
def elt : ENum → ENum → Bool
  | .nan, _ => false
  | _, .nan => false
  | .ninf, .ninf => false
  | .ninf, _ => true
  | _, .ninf => false
  | .pinf, _ => false
  | .fin _, .pinf => true
  | .fin a, .fin b => decide (a < b)

/-- JavaScript `Number.isFinite` on `ENum`. -/
def isFiniteE : ENum → Bool
  | .fin _ => true
  | _ => false

/-- The rational value of a finite `ENum` (junk value `0` otherwise). -/
def toQ : ENum → ℚ
  | .fin q => q
  | _ => 0

/-- A point: the selected independent (`x`) and dependent (`y`) coordinates,
plus any extra fields the caller's record carries. -/
structure Pt where
  x : ENum
  y : ENum
  extra : List (String × ENum)
deriving DecidableEq

instance : Inhabited Pt := ⟨⟨.nan, .nan, []⟩⟩

/-- A default point used for the (unreachable) out-of-bounds accesses that
the source writes as `curve.at(i)!`. -/
def ptNaN : Pt := ⟨.nan, .nan, []⟩

/-- A point with finite coordinates and no extra fields. -/
def mkPt (a b : ℚ) : Pt := ⟨.fin a, .fin b, []⟩

/-- `_interpolate(a, b, x, y, xval)` from `mod.ts`: two-point linear
interpolation, returning `NaN` on a zero-width span and the left `y` when
the left `x` is non-finite.  The result carries only the two coordinates. -/
def interpolate (a b : Pt) (xval : ENum) : Pt :=
  let dx := esub b.x a.x
  let dy := esub b.y a.y
  if eeq dx (.fin 0) then ⟨xval, .nan, []⟩
  else if isFiniteE a.x then
    ⟨xval, eadd a.y (emul (ediv (esub xval a.x) dx) dy), []⟩
  else ⟨xval, a.y, []⟩

/-- The exact collinearity test of `reduce`:
`(x2 - x0) * (y1 - y0) === (x1 - x0) * (y2 - y0)`. -/
def collin3 (p0 p1 p2 : Pt) : Bool :=
  eeq (emul (esub p2.x p0.x) (esub p1.y p0.y)) (emul (esub p1.x p0.x) (esub p2.y p0.y))

/-- `reduce(curve, x, y)` from `mod.ts`: keeps the first point, each interior
point that is not exactly collinear with its two original neighbours, and
the last point. -/
def reduce (curve : List Pt) : List Pt :=
  match curve with
  | [] => []
  | c0 :: rest =>
    let cv := c0 :: rest
    c0 ::
      (((List.range' 1 (cv.length - 2)).filterMap fun i =>
        if collin3 (cv.getD (i - 1) ptNaN) (cv.getD i ptNaN) (cv.getD (i + 1) ptNaN)
        then none else some (cv.getD i ptNaN)) ++
      [cv.getLastD ptNaN])

/-- `split(curve, x, y, x0)` from `mod.ts`: bins the points into `neg`
(`X < x0`), `pos` (`X > x0`) and `mid` (the rest), translating each by
`-x0` and keeping only the two coordinates; then either shares the first
and last `mid` point between the sides or interpolates one boundary point
at the translated origin. -/
def split (curve : List Pt) (x0 : ENum) : List Pt × List Pt :=
  let neg := (curve.filter fun p => elt p.x x0).map
    fun p => (⟨esub p.x x0, p.y, []⟩ : Pt)
  let pos := (curve.filter fun p => !elt p.x x0 && elt x0 p.x).map
    fun p => (⟨esub p.x x0, p.y, []⟩ : Pt)
  let mid := (curve.filter fun p => !elt p.x x0 && !elt x0 p.x).map
    fun p => (⟨esub p.x x0, p.y, []⟩ : Pt)
  if mid = [] then
    if neg ≠ [] ∧ pos ≠ [] then
      let p := interpolate (neg.getLastD ptNaN) (pos.headD ptNaN) (.fin 0)
      (neg ++ [p], p :: pos)
    else (neg, pos)
  else (neg ++ [mid.headD ptNaN], mid.getLastD ptNaN :: pos)

/-- `truncate(curve, x, y, min, max)` from `mod.ts`: bins the points into
`neg` (`X < min`), `pos` (`X > max`) and `mid`, keeping only the two
coordinates, then synthesizes an interpolated boundary point at `min`
and/or `max` when the corresponding outer bin is non-empty. -/
def truncate (curve : List Pt) (mn mx : ENum) : List Pt :=
  let neg := (curve.filter fun p => elt p.x mn).map
    fun p => (⟨p.x, p.y, []⟩ : Pt)
  let mid0 := (curve.filter fun p => !elt p.x mn && !elt mx p.x).map
    fun p => (⟨p.x, p.y, []⟩ : Pt)
  let pos := (curve.filter fun p => !elt p.x mn && elt mx p.x).map
    fun p => (⟨p.x, p.y, []⟩ : Pt)
  let mid1 :=
    if neg ≠ [] then
      match mid0.head?.orElse fun _ => pos.head? with
      | some rhs =>
        if elt mn rhs.x then interpolate (neg.getLastD ptNaN) rhs mn :: mid0 else mid0
      | none => mid0
    else mid0
  let mid2 :=
    if pos ≠ [] then
      match mid1.getLast?.orElse fun _ => neg.getLast? with
      | some lhs =>
        if elt lhs.x mx then mid1 ++ [interpolate lhs (pos.headD ptNaN) mx] else mid1
      | none => mid1
    else mid1
  mid2

/-- The initial "just-passed" cursor of `_sum2`: the `-∞` sentinel carrying
the curve's first recorded Y (or `0` for an empty curve). -/
def initE (a : List Pt) : ENum × ENum :=
  (.ninf, match a.head? with | some p => p.y | none => .fin 0)

/-- The "next" cursor of `_sum2`: the next real point, or the `+∞` sentinel
carrying the just-passed Y once the curve is exhausted. -/
def sHead (a0 : ENum × ENum) (ra : List Pt) : ENum × ENum :=
  match ra with
  | [] => (.pinf, a0.2)
  | p :: _ => (p.x, p.y)

/-- The Y of `_interpolate` applied to the two cursor points of `_sum2`. -/
def interpY (a0 a1 : ENum × ENum) (xv : ENum) : ENum :=
  (interpolate ⟨a0.1, a0.2, []⟩ ⟨a1.1, a1.2, []⟩ xv).y

/-- The two-pointer merge loop of `_sum2`, fuelled: each iteration emits the
breakpoint at `x1 = min(a1.X, b1.X)` and advances exactly those cursors
whose next X strictly-equals `x1`.  `none` models a loop that does not
finish within `fuel` iterations (the JavaScript loop would not terminate on
such inputs). -/
def sum2Aux : Nat → ENum × ENum → ENum × ENum → List Pt → List Pt → Option (List Pt)
  | fuel, a0, b0, ra, rb =>
    if ra = [] ∧ rb = [] then some []
    else
      match fuel with
      | 0 => none
      | f + 1 =>
        let a1 := sHead a0 ra
        let b1 := sHead b0 rb
        let x1 := emin a1.1 b1.1
        let sa : ENum × (ENum × ENum) × List Pt :=
          if eeq a1.1 x1 then (a1.2, a1, ra.tail) else (interpY a0 a1 x1, a0, ra)
        let sb : ENum × (ENum × ENum) × List Pt :=
          if eeq b1.1 x1 then (b1.2, b1, rb.tail) else (interpY b0 b1 x1, b0, rb)
        (sum2Aux f sa.2.1 sb.2.1 sa.2.2 sb.2.2).map
          (⟨x1, eadd (eadd (.fin 0) sa.1) sb.1, []⟩ :: ·)

/-- `_sum2(a, b, x, y)` from `mod.ts` (with fuel `|a| + |b|`, which suffices
for finite inputs). -/
def sum2 (a b : List Pt) : List Pt :=
  (sum2Aux (a.length + b.length) (initE a) (initE b) a b).getD []

/-- One round of `sum`'s halving fold: for `i < g`, slot `i` becomes
`_sum2(current[i], current.at(i + g) ?? [])`; other slots are untouched
(the JavaScript array is never truncated). -/
def roundMap (cur : List (List Pt)) (g : Nat) : List (List Pt) :=
  (List.range cur.length).map fun i =>
    if i < g then sum2 (cur.getD i []) (cur.getD (i + g) []) else cur.getD i []

/-- The `while (gap > 1)` loop of `sum`, fuelled (the initial list length is
ample fuel since the gap at least halves each round). -/
def sumLoop : Nat → Nat → List (List Pt) → List (List Pt)
  | 0, _, cur => cur
  | f + 1, gap, cur =>
    if gap ≤ 1 then cur
    else
      let g := (gap + 1) / 2
      sumLoop f g (roundMap cur g)

/-- `sum(curves, x, y)` from `mod.ts`: the halving pairwise fold over
`_sum2`, returning slot 0 (or an empty curve). -/
def sum (curves : List (List Pt)) : List Pt :=
  (sumLoop curves.length curves.length curves).headD []

/-- The mathematical linear-interpolation formula through `(x0, y0)` and
`(x1, y1)`, evaluated at `z` (the formula the specification quotes). -/
def lerpQ (x0 y0 x1 y1 z : ℚ) : ℚ :=
  y0 + (z - x0) / (x1 - x0) * (y1 - y0)

/-- The piecewise-linear function defined by a list of breakpoints:
constant extrapolation outside the recorded domain, linear interpolation on
each segment, and (at a breakpoint X shared by several points) the first
point's value.  An empty list of breakpoints evaluates to `0`. -/
def evalP : List (ℚ × ℚ) → ℚ → ℚ
  | [], _ => 0
  | [p], _ => p.2
  | p :: q :: rest, X =>
    if X ≤ p.1 then p.2
    else if X < q.1 then p.2 + (X - p.1) / (q.1 - p.1) * (q.2 - p.2)
    else evalP (q :: rest) X

/-- The coordinate pairs of a curve, as exact rationals. -/
def pairsQ (c : List Pt) : List (ℚ × ℚ) :=
  c.map fun p => (toQ p.x, toQ p.y)

/-- Comparison of two points by their (finite) independent coordinate. -/
def leX (p q : Pt) : Prop := toQ p.x ≤ toQ q.x

instance : DecidableRel leX := fun p q => inferInstanceAs (Decidable (toQ p.x ≤ toQ q.x))

instance : IsTrans Pt leX := ⟨fun _ _ _ h1 h2 => le_trans h1 h2⟩

/-- Weak monotonicity of a curve in the independent coordinate: every
adjacent pair of points has non-decreasing X. -/
def MonoC (c : List Pt) : Prop := List.Chain' leX c

/-- Whether both coordinates of a point are finite. -/
def finPt (p : Pt) : Bool := isFiniteE p.x && isFiniteE p.y

/-- Whether every point of a curve has finite coordinates. -/
def finC (c : List Pt) : Bool := c.all finPt

/-- Whether every point of a curve has a finite independent coordinate. -/
def finXC (c : List Pt) : Bool := c.all fun p => isFiniteE p.x

/-- Re-joining the two halves of a `split`: translate both back by `+x0`,
concatenate, and drop one copy of the boundary point when it is duplicated. -/
def rejoinSplit (curve : List Pt) (x0 : ENum) : List Pt :=
  let l := (split curve x0).1.map fun p => (⟨eadd p.x x0, p.y, []⟩ : Pt)
  let r := (split curve x0).2.map fun p => (⟨eadd p.x x0, p.y, []⟩ : Pt)
  l ++ (if l.getLast? = r.head? then r.tail else r)

/-- Five single-point curves whose code-computed `sum` double-counts the
fourth curve (the halving fold re-reads a stale slot). -/
def c1Curves : List (List Pt) :=
  [[mkPt 0 1], [mkPt 0 2], [mkPt 0 4], [mkPt 0 8], [mkPt 0 16]]

/-- The duplicated-interior-point curve of the repository's own
"Test duplicated point collinearity" test. -/
def c2Curve : List Pt := [mkPt 5 (-2), mkPt 10 0, mkPt 10 0, mkPt 10 5]

/-- A weakly monotone curve on which `reduce` is not idempotent. -/
def c4Curve : List Pt := [mkPt 0 0, mkPt 1 3, mkPt 1 3, mkPt 2 2, mkPt 4 4]

/-- A one-curve input whose points carry an extra field `"z"`. -/
def c6Curve : List Pt := [⟨.fin 0, .fin 1, [("z", .fin 7)]⟩]

/-- The point-restriction `{ [x]: p[x], [y]: p[y] }` used by `truncate`. -/
def stripF : Pt → Pt := fun p => ⟨p.x, p.y, []⟩

/-- The `neg` bin of `truncate` (`X < min`). -/
def tNeg (c : List Pt) (mn : ENum) : List Pt :=
  (c.filter fun p => elt p.x mn).map stripF

/-- The `mid` bin of `truncate` (`min ≤ X ≤ max`). -/
def tMid0 (c : List Pt) (mn mx : ENum) : List Pt :=
  (c.filter fun p => !elt p.x mn && !elt mx p.x).map stripF

/-- The `pos` bin of `truncate` (`X > max`). -/
def tPos (c : List Pt) (mn mx : ENum) : List Pt :=
  (c.filter fun p => !elt p.x mn && elt mx p.x).map stripF

/-- The left-boundary synthesis step of `truncate`. -/
def tMid1 (neg mid0 pos : List Pt) (mn : ENum) : List Pt :=
  if neg ≠ [] then
    match mid0.head?.orElse fun _ => pos.head? with
    | some rhs =>
      if elt mn rhs.x then interpolate (neg.getLastD ptNaN) rhs mn :: mid0 else mid0
    | none => mid0
  else mid0

/-- The right-boundary synthesis step of `truncate`. -/
def tMid2 (neg mid1 pos : List Pt) (mx : ENum) : List Pt :=
  if pos ≠ [] then
    match mid1.getLast?.orElse fun _ => neg.getLast? with
    | some lhs =>
      if elt lhs.x mx then mid1 ++ [interpolate lhs (pos.headD ptNaN) mx] else mid1
    | none => mid1
  else mid1

/-- The raw `neg` filter of `truncate` (before the X/Y restriction). -/
def fNeg (c : List Pt) (mn : ENum) : List Pt := c.filter fun p => elt p.x mn

/-- The raw `mid` filter of `truncate`. -/
def fMid (c : List Pt) (mn mx : ENum) : List Pt :=
  c.filter fun p => !elt p.x mn && !elt mx p.x

/-- The raw `pos` filter of `truncate`. -/
def fPos (c : List Pt) (mn mx : ENum) : List Pt :=
  c.filter fun p => !elt p.x mn && elt mx p.x

/-! ## Basic lemmas about the number model -/

theorem eeq_fin_zero_iff (e : ENum) : eeq e (.fin 0) = true ↔ e = .fin 0 := by
  cases e <;> simp [eeq]

theorem eeq_fin_zero_false {e : ENum} (h : e ≠ .fin 0) : eeq e (.fin 0) = false := by
  cases hbe : eeq e (.fin 0) with
  | false => rfl
  | true => exact absurd ((eeq_fin_zero_iff _).1 hbe) h

theorem fin_of_isFiniteE {e : ENum} (h : isFiniteE e = true) : e = .fin (toQ e) := by
  cases e <;> simp_all [isFiniteE, toQ]

theorem elt_fin (a b : ℚ) : elt (.fin a) (.fin b) = decide (a < b) := rfl

theorem eeq_fin (a b : ℚ) : eeq (.fin a) (.fin b) = decide (a = b) := rfl

theorem esub_fin (a b : ℚ) : esub (.fin a) (.fin b) = .fin (a - b) := rfl

theorem eadd_fin (a b : ℚ) : eadd (.fin a) (.fin b) = .fin (a + b) := rfl

theorem emin_fin (a b : ℚ) : emin (.fin a) (.fin b) = .fin (min a b) := rfl

theorem finC_mem {c : List Pt} (hf : finC c = true) {p : Pt} (hp : p ∈ c) :
    isFiniteE p.x = true ∧ isFiniteE p.y = true := by
  have := (List.all_eq_true.1 hf) p hp
  simpa [finPt, Bool.and_eq_true] using this

theorem finXC_mem {c : List Pt} (hf : finXC c = true) {p : Pt} (hp : p ∈ c) :
    isFiniteE p.x = true := List.all_eq_true.1 hf p hp

theorem finXC_of_finC {c : List Pt} (hf : finC c = true) : finXC c = true := by
  refine List.all_eq_true.2 fun p hp => (finC_mem hf hp).1

/-! ## Lemmas about the piecewise-linear evaluator -/

theorem evalP_head_le {p : ℚ × ℚ} (post : List (ℚ × ℚ)) {X : ℚ} (h : X ≤ p.1) :
    evalP (p :: post) X = p.2 := by
  cases post with
  | nil => rfl
  | cons q t => simp [evalP, h]

theorem evalP_cons_cong (a : ℚ × ℚ) {l1 l2 : List (ℚ × ℚ)} (X : ℚ)
    (hh : l1.head? = l2.head?) (he : evalP l1 X = evalP l2 X) :
    evalP (a :: l1) X = evalP (a :: l2) X := by
  cases l1 with
  | nil =>
    cases l2 with
    | nil => rfl
    | cons q t => simp at hh
  | cons q1 t1 =>
    cases l2 with
    | nil => simp at hh
    | cons q2 t2 =>
      obtain rfl : q1 = q2 := by simpa using hh
      simp only [evalP]
      rw [he]

theorem evalP_append_cong (A : List (ℚ × ℚ)) {l1 l2 : List (ℚ × ℚ)} (X : ℚ)
    (hh : l1.head? = l2.head?) (he : ∀ Y, evalP l1 Y = evalP l2 Y) :
    evalP (A ++ l1) X = evalP (A ++ l2) X := by
  induction A with
  | nil => exact he X
  | cons a A ih =>
    simp only [List.cons_append]
    refine evalP_cons_cong a X ?_ ih
    cases A with
    | nil => simpa using hh
    | cons b B => simp

theorem evalP_dup (p : ℚ × ℚ) (post : List (ℚ × ℚ)) (X : ℚ) :
    evalP (p :: p :: post) X = evalP (p :: post) X := by
  by_cases h : X ≤ p.1
  · rw [evalP_head_le _ h, evalP_head_le _ h]
  · simp only [evalP]
    rw [if_neg h, if_neg (by push_neg at h ⊢; exact le_of_lt h)]

theorem evalP_vrun {x0 : ℚ} (r : ℚ × ℚ) (run post : List (ℚ × ℚ)) {X : ℚ}
    (hall : ∀ s ∈ run, s.1 = x0) (hr : r.1 = x0) (hX : x0 < X) :
    evalP (r :: (run ++ post)) X = evalP (run.getLastD r :: post) X := by
  induction run generalizing r with
  | nil => rfl
  | cons s run ih =>
    have hs : s.1 = x0 := hall s (by simp)
    simp only [List.cons_append, List.getLastD_cons]
    rw [← ih s (fun u hu => hall u (List.mem_cons_of_mem _ hu)) hs]
    simp only [evalP]
    rw [if_neg (by rw [hr]; exact not_le.2 hX), if_neg (by rw [hs]; exact not_lt.2 (le_of_lt hX))]

theorem evalP_cons2 (a b : ℚ × ℚ) (t : List (ℚ × ℚ)) (X : ℚ) :
    evalP (a :: b :: t) X =
      if X ≤ a.1 then a.2
      else if X < b.1 then a.2 + (X - a.1) / (b.1 - a.1) * (b.2 - a.2)
      else evalP (b :: t) X := rfl

theorem evalP_collinear_ins (p q : ℚ × ℚ) (z : ℚ) (post : List (ℚ × ℚ)) (X : ℚ)
    (h1 : p.1 < z) (h2 : z < q.1) :
    evalP (p :: (z, lerpQ p.1 p.2 q.1 q.2 z) :: q :: post) X = evalP (p :: q :: post) X := by
  have hzp : z - p.1 ≠ 0 := sub_ne_zero.2 (ne_of_gt h1)
  have hqp : q.1 - p.1 ≠ 0 := sub_ne_zero.2 (ne_of_gt (lt_trans h1 h2))
  have hqz : q.1 - z ≠ 0 := sub_ne_zero.2 (ne_of_gt h2)
  by_cases hX1 : X ≤ p.1
  · rw [evalP_head_le _ hX1, evalP_head_le _ hX1]
  · push_neg at hX1
    by_cases hX2 : X < z
    · rw [evalP_cons2, if_neg (not_le.2 hX1), if_pos hX2,
        evalP_cons2, if_neg (not_le.2 hX1), if_pos (lt_trans hX2 h2)]
      simp only [lerpQ]
      field_simp
      ring
    · push_neg at hX2
      rw [evalP_cons2, if_neg (not_le.2 hX1), if_neg (not_lt.2 hX2)]
      by_cases hX3 : X < q.1
      · by_cases hX4 : X ≤ z
        · have hXz : X = z := le_antisymm hX4 hX2
          subst hXz
          rw [evalP_head_le _ (le_refl _), evalP_cons2, if_neg (not_le.2 hX1), if_pos hX3]
          rfl
        · push_neg at hX4
          rw [evalP_cons2, if_neg (not_le.2 hX4), if_pos hX3,
            evalP_cons2, if_neg (not_le.2 hX1), if_pos hX3]
          simp only [lerpQ]
          field_simp
          ring
      · push_neg at hX3
        rw [evalP_cons2, if_neg (not_le.2 (lt_of_lt_of_le h2 hX3)), if_neg (not_lt.2 hX3),
          evalP_cons2, if_neg (not_le.2 hX1), if_neg (not_lt.2 hX3)]

/-- Transitivity of linear interpolation: interpolating from a point that
itself lies on the segment through `(x0,y0)` and `(x1,y1)` gives the same
line. -/
theorem lerpQ_chain (x0 y0 x1 y1 z w : ℚ) (h0 : x0 ≠ x1) (hz : z ≠ x1) :
    lerpQ z (lerpQ x0 y0 x1 y1 z) x1 y1 w = lerpQ x0 y0 x1 y1 w := by
  have h0' : x1 - x0 ≠ 0 := sub_ne_zero.2 (Ne.symm h0)
  have hz' : x1 - z ≠ 0 := sub_ne_zero.2 (Ne.symm hz)
  simp only [lerpQ]
  field_simp
  ring

/-! ## Sorted partition lemmas -/

theorem sorted_part2 (P : List (ℚ × ℚ)) (pr : ℚ × ℚ → Bool)
    (hP : List.Pairwise (fun u v : ℚ × ℚ => u.1 ≤ v.1) P)
    (hdc : ∀ u v : ℚ × ℚ, u.1 ≤ v.1 → pr v = true → pr u = true) :
    P = P.filter pr ++ P.filter (fun u => !pr u) := by
  induction P with
  | nil => rfl
  | cons a P ih =>
    rcases List.pairwise_cons.1 hP with ⟨ha, hP'⟩
    cases hpa : pr a with
    | true =>
      have h1 : List.filter pr (a :: P) = a :: P.filter pr := by
        simp [List.filter_cons, hpa]
      have h2 : List.filter (fun u => !pr u) (a :: P) = P.filter (fun u => !pr u) := by
        simp [List.filter_cons, hpa]
      rw [h1, h2, List.cons_append]
      exact congrArg (List.cons a) (ih hP')
    | false =>
      have hall : ∀ u ∈ P, pr u = false := by
        intro u hu
        cases hpu : pr u with
        | false => rfl
        | true => rw [hdc a u (ha u hu) hpu] at hpa; exact hpa
      have h1 : List.filter pr (a :: P) = [] := by
        refine List.filter_eq_nil_iff.2 ?_
        intro u hu
        rcases List.mem_cons.1 hu with rfl | hu'
        · simp [hpa]
        · simp [hall u hu']
      have h2 : List.filter (fun u => !pr u) (a :: P) = a :: P := by
        refine List.filter_eq_self.2 ?_
        intro u hu
        rcases List.mem_cons.1 hu with rfl | hu'
        · simp [hpa]
        · simp [hall u hu']
      rw [h1, h2, List.nil_append]

theorem sorted_part3 (z : ℚ) (P : List (ℚ × ℚ))
    (hP : List.Pairwise (fun u v : ℚ × ℚ => u.1 ≤ v.1) P) :
    P = P.filter (fun u => decide (u.1 < z)) ++ P.filter (fun u => decide (u.1 = z))
      ++ P.filter (fun u => decide (z < u.1)) := by
  induction P with
  | nil => rfl
  | cons a P ih =>
    rcases List.pairwise_cons.1 hP with ⟨ha, hP'⟩
    have hih := ih hP'
    rcases lt_trichotomy a.1 z with h | h | h
    · have h1 : List.filter (fun u : ℚ × ℚ => decide (u.1 < z)) (a :: P)
          = a :: P.filter (fun u => decide (u.1 < z)) := by simp [List.filter_cons, h]
      have h2 : List.filter (fun u : ℚ × ℚ => decide (u.1 = z)) (a :: P)
          = P.filter (fun u => decide (u.1 = z)) := by simp [List.filter_cons, ne_of_lt h]
      have h3 : List.filter (fun u : ℚ × ℚ => decide (z < u.1)) (a :: P)
          = P.filter (fun u => decide (z < u.1)) := by simp [List.filter_cons, not_lt.2 (le_of_lt h)]
      rw [h1, h2, h3, List.cons_append]
      exact congrArg (List.cons a) hih
    · have hall : ∀ u ∈ P, ¬(u.1 < z) := fun u hu => not_lt.2 (h ▸ ha u hu)
      have h1 : List.filter (fun u : ℚ × ℚ => decide (u.1 < z)) (a :: P) = [] := by
        refine List.filter_eq_nil_iff.2 ?_
        intro u hu
        rcases List.mem_cons.1 hu with rfl | hu'
        · simp [h]
        · simp [hall u hu']
      have h1' : List.filter (fun u : ℚ × ℚ => decide (u.1 < z)) P = [] := by
        refine List.filter_eq_nil_iff.2 ?_
        intro u hu
        simp [hall u hu]
      have h2 : List.filter (fun u : ℚ × ℚ => decide (u.1 = z)) (a :: P)
          = a :: P.filter (fun u => decide (u.1 = z)) := by simp [List.filter_cons, h]
      have h3 : List.filter (fun u : ℚ × ℚ => decide (z < u.1)) (a :: P)
          = P.filter (fun u => decide (z < u.1)) := by simp [List.filter_cons, h]
      rw [h1, h2, h3, List.nil_append, List.cons_append]
      refine congrArg (List.cons a) ?_
      conv_lhs => rw [hih]
      rw [h1', List.nil_append]
    · have hall : ∀ u ∈ P, z < u.1 := fun u hu => lt_of_lt_of_le h (ha u hu)
      have h1 : List.filter (fun u : ℚ × ℚ => decide (u.1 < z)) (a :: P) = [] := by
        refine List.filter_eq_nil_iff.2 ?_
        intro u hu
        rcases List.mem_cons.1 hu with rfl | hu'
        · simp [not_lt.2 (le_of_lt h)]
        · simp [not_lt.2 (le_of_lt (hall u hu'))]
      have h1' : List.filter (fun u : ℚ × ℚ => decide (u.1 < z)) P = [] := by
        refine List.filter_eq_nil_iff.2 fun u hu => by
          simp [not_lt.2 (le_of_lt (hall u hu))]
      have h2 : List.filter (fun u : ℚ × ℚ => decide (u.1 = z)) (a :: P) = [] := by
        refine List.filter_eq_nil_iff.2 ?_
        intro u hu
        rcases List.mem_cons.1 hu with rfl | hu'
        · simp [ne_of_gt h]
        · simp [ne_of_gt (hall u hu')]
      have h2' : List.filter (fun u : ℚ × ℚ => decide (u.1 = z)) P = [] := by
        refine List.filter_eq_nil_iff.2 fun u hu => by simp [ne_of_gt (hall u hu)]
      have h3 : List.filter (fun u : ℚ × ℚ => decide (z < u.1)) (a :: P)
          = a :: P.filter (fun u => decide (z < u.1)) := by simp [List.filter_cons, h]
      rw [h1, h2, h3, List.nil_append, List.nil_append]
      refine congrArg (List.cons a) ?_
      conv_lhs => rw [hih]
      rw [h1', h2', List.nil_append, List.nil_append]

/-! ## Transfer lemmas between the point model and rational pairs -/

theorem pairsQ_pairwise {c : List Pt} (hm : MonoC c) :
    List.Pairwise (fun u v : ℚ × ℚ => u.1 ≤ v.1) (pairsQ c) := by
  have hp : List.Pairwise leX c := List.chain'_iff_pairwise.1 hm
  exact List.pairwise_map.2 (hp.imp fun h => h)

theorem pairsQ_map_strip (l : List Pt) :
    pairsQ (l.map fun p => (⟨p.x, p.y, []⟩ : Pt)) = pairsQ l := by
  simp [pairsQ, List.map_map, Function.comp]

theorem pairsQ_filter (c : List Pt) (prB : Pt → Bool) (prQ : ℚ × ℚ → Bool)
    (hpr : ∀ p ∈ c, prB p = prQ (toQ p.x, toQ p.y)) :
    pairsQ (c.filter prB) = (pairsQ c).filter prQ := by
  unfold pairsQ
  rw [List.filter_map]
  congr 1
  refine List.filter_congr ?_
  intro p hp
  simpa using hpr p hp

theorem map_back_tr (x0 : ℚ) (l : List Pt) (hfin : ∀ p ∈ l, isFiniteE p.x = true) :
    ((l.map fun p => (⟨esub p.x (.fin x0), p.y, []⟩ : Pt)).map
      fun p => (⟨eadd p.x (.fin x0), p.y, []⟩ : Pt))
    = l.map fun p => (⟨p.x, p.y, []⟩ : Pt) := by
  rw [List.map_map]
  refine List.map_congr_left ?_
  intro p hp
  have hx := fin_of_isFiniteE (hfin p hp)
  simp only [Function.comp]
  rw [hx, esub_fin, eadd_fin, sub_add_cancel]

/-! ## Small list utilities -/

theorem headD_cons_tail {α : Type} (l : List α) (d : α) (h : l ≠ []) :
    l.headD d :: l.tail = l := by
  cases l with
  | nil => exact absurd rfl h
  | cons a t => rfl

theorem headD_mem {α : Type} (l : List α) (d : α) (h : l ≠ []) : l.headD d ∈ l := by
  cases l with
  | nil => exact absurd rfl h
  | cons a t => simp

theorem map_headD {α β : Type} (f : α → β) (l : List α) (d : β) (d' : α) (h : l ≠ []) :
    (l.map f).headD d = f (l.headD d') := by
  cases l with
  | nil => exact absurd rfl h
  | cons a t => rfl

theorem getLastD_irrel {α : Type} (l : List α) (d d' : α) (h : l ≠ []) :
    l.getLastD d = l.getLastD d' := by
  induction l generalizing d d' with
  | nil => exact absurd rfl h
  | cons a t ih =>
    rw [List.getLastD_cons, List.getLastD_cons]

theorem map_getLastD {α β : Type} (f : α → β) (l : List α) (d : β) (d' : α) (h : l ≠ []) :
    (l.map f).getLastD d = f (l.getLastD d') := by
  induction l generalizing d d' with
  | nil => exact absurd rfl h
  | cons a t ih =>
    cases t with
    | nil => rfl
    | cons b t' =>
      rw [List.map_cons, List.getLastD_cons, List.getLastD_cons]
      exact ih _ _ (by simp)

theorem getLastD_mem {α : Type} (l : List α) (d : α) (h : l ≠ []) : l.getLastD d ∈ l := by
  induction l generalizing d with
  | nil => exact absurd rfl h
  | cons a t ih =>
    rw [List.getLastD_cons]
    cases t with
    | nil => simp [List.getLastD]
    | cons b t' => exact List.mem_cons_of_mem _ (ih a (by simp))

theorem dropLast_append_getLastD {α : Type} (l : List α) (d : α) (h : l ≠ []) :
    l.dropLast ++ [l.getLastD d] = l := by
  induction l generalizing d with
  | nil => exact absurd rfl h
  | cons a t ih =>
    cases t with
    | nil => rfl
    | cons b t' =>
      rw [List.getLastD_cons, List.dropLast_cons₂, List.cons_append]
      exact congrArg (List.cons a) (ih a (by simp))

theorem pairsQ_append (l1 l2 : List Pt) : pairsQ (l1 ++ l2) = pairsQ l1 ++ pairsQ l2 :=
  List.map_append _ _ _

/-! ## Boolean predicate computations on finite coordinates -/

theorem boolmid (q z : ℚ) : (!decide (q < z) && !decide (z < q)) = decide (q = z) := by
  rcases lt_trichotomy q z with h | h | h
  · simp [h, ne_of_lt h]
  · simp [h]
  · simp [h, not_lt.2 (le_of_lt h), ne_of_gt h]

theorem boolpos (q z : ℚ) : (!decide (q < z) && decide (z < q)) = decide (z < q) := by
  by_cases hb : z < q
  · simp [hb, not_lt.2 (le_of_lt hb)]
  · simp [hb]

/-! ## Characterizations of `split` by cases on the bins -/

theorem split_mid_ne (c : List Pt) (x0 : ENum)
    (h : (c.filter fun p => !elt p.x x0 && !elt x0 p.x) ≠ []) :
    split c x0 =
      (((c.filter fun p => elt p.x x0).map fun p => (⟨esub p.x x0, p.y, []⟩ : Pt)) ++
        [((c.filter fun p => !elt p.x x0 && !elt x0 p.x).map fun p =>
            (⟨esub p.x x0, p.y, []⟩ : Pt)).headD ptNaN],
       ((c.filter fun p => !elt p.x x0 && !elt x0 p.x).map fun p =>
            (⟨esub p.x x0, p.y, []⟩ : Pt)).getLastD ptNaN ::
        ((c.filter fun p => !elt p.x x0 && elt x0 p.x).map fun p =>
            (⟨esub p.x x0, p.y, []⟩ : Pt))) := by
  simp only [split]
  rw [if_neg (by simpa using h)]

theorem split_mid_nil_both (c : List Pt) (x0 : ENum)
    (h : (c.filter fun p => !elt p.x x0 && !elt x0 p.x) = [])
    (hn : (c.filter fun p => elt p.x x0) ≠ [])
    (hp : (c.filter fun p => !elt p.x x0 && elt x0 p.x) ≠ []) :
    split c x0 =
      (((c.filter fun p => elt p.x x0).map fun p => (⟨esub p.x x0, p.y, []⟩ : Pt)) ++
        [interpolate
          (((c.filter fun p => elt p.x x0).map fun p =>
              (⟨esub p.x x0, p.y, []⟩ : Pt)).getLastD ptNaN)
          (((c.filter fun p => !elt p.x x0 && elt x0 p.x).map fun p =>
              (⟨esub p.x x0, p.y, []⟩ : Pt)).headD ptNaN) (.fin 0)],
       interpolate
          (((c.filter fun p => elt p.x x0).map fun p =>
              (⟨esub p.x x0, p.y, []⟩ : Pt)).getLastD ptNaN)
          (((c.filter fun p => !elt p.x x0 && elt x0 p.x).map fun p =>
              (⟨esub p.x x0, p.y, []⟩ : Pt)).headD ptNaN) (.fin 0) ::
        ((c.filter fun p => !elt p.x x0 && elt x0 p.x).map fun p =>
            (⟨esub p.x x0, p.y, []⟩ : Pt))) := by
  simp only [split]
  rw [if_pos (by simp [h]), if_pos ⟨by simpa using hn, by simpa using hp⟩]

theorem split_mid_nil_one (c : List Pt) (x0 : ENum)
    (h : (c.filter fun p => !elt p.x x0 && !elt x0 p.x) = [])
    (hnp : ¬((c.filter fun p => elt p.x x0) ≠ [] ∧
      (c.filter fun p => !elt p.x x0 && elt x0 p.x) ≠ [])) :
    split c x0 =
      ((c.filter fun p => elt p.x x0).map fun p => (⟨esub p.x x0, p.y, []⟩ : Pt),
       (c.filter fun p => !elt p.x x0 && elt x0 p.x).map fun p =>
          (⟨esub p.x x0, p.y, []⟩ : Pt)) := by
  simp only [split]
  rw [if_pos (by simp [h]), if_neg (by
    intro hc
    exact hnp ⟨by simpa using hc.1, by simpa using hc.2⟩)]

/-! ## Pair-level evaluation lemmas for collapsing a vertical run -/

theorem eval_vrun_collapse1 (m0 : ℚ × ℚ) (mt B : List (ℚ × ℚ)) (x0 : ℚ)
    (hm0 : m0.1 = x0) (hmt : ∀ s ∈ mt, s.1 = x0) (hlast : mt.getLastD m0 = m0) (Y : ℚ) :
    evalP (m0 :: B) Y = evalP (m0 :: (mt ++ B)) Y := by
  by_cases hY : Y ≤ x0
  · rw [evalP_head_le _ (le_of_le_of_eq hY hm0.symm),
      evalP_head_le _ (le_of_le_of_eq hY hm0.symm)]
  · push_neg at hY
    rw [evalP_vrun m0 mt B hmt hm0 hY, hlast]

theorem eval_vrun_collapse2 (m0 mL : ℚ × ℚ) (mt B : List (ℚ × ℚ)) (x0 : ℚ)
    (hm0 : m0.1 = x0) (hmL1 : mL.1 = x0) (hmt : ∀ s ∈ mt, s.1 = x0)
    (hlast : mt.getLastD m0 = mL) (Y : ℚ) :
    evalP (m0 :: mL :: B) Y = evalP (m0 :: (mt ++ B)) Y := by
  by_cases hY : Y ≤ x0
  · rw [evalP_head_le _ (le_of_le_of_eq hY hm0.symm),
      evalP_head_le _ (le_of_le_of_eq hY hm0.symm)]
  · push_neg at hY
    rw [evalP_vrun m0 mt B hmt hm0 hY, hlast]
    have h2 := evalP_vrun m0 [mL] B (by
      intro s hs
      rw [List.mem_singleton.1 hs]
      exact hmL1) hm0 hY
    simpa using h2

/-! ## The three bins of `split`/`truncate`, at pair level -/

theorem pairsQ_filter_lt (c : List Pt) (x0 : ℚ) (hf : finC c = true) :
    pairsQ (c.filter fun p => elt p.x (.fin x0))
      = (pairsQ c).filter (fun u => decide (u.1 < x0)) := by
  refine pairsQ_filter c _ _ ?_
  intro p hp
  rw [fin_of_isFiniteE (finC_mem hf hp).1]
  rfl

theorem pairsQ_filter_gt (c : List Pt) (x0 : ℚ) (hf : finC c = true) :
    pairsQ (c.filter fun p => !elt p.x (.fin x0) && elt (.fin x0) p.x)
      = (pairsQ c).filter (fun u => decide (x0 < u.1)) := by
  refine pairsQ_filter c _ _ ?_
  intro p hp
  rw [fin_of_isFiniteE (finC_mem hf hp).1]
  simp only [elt_fin, toQ]
  exact boolpos _ x0

theorem pairsQ_filter_eq (c : List Pt) (x0 : ℚ) (hf : finC c = true) :
    pairsQ (c.filter fun p => !elt p.x (.fin x0) && !elt (.fin x0) p.x)
      = (pairsQ c).filter (fun u => decide (u.1 = x0)) := by
  refine pairsQ_filter c _ _ ?_
  intro p hp
  rw [fin_of_isFiniteE (finC_mem hf hp).1]
  simp only [elt_fin, toQ]
  exact boolmid _ x0

/-! ## The re-join of a split, evaluated (mid bin non-empty) -/

theorem rejoin_eval_mid (c : List Pt) (x0 X : ℚ) (hf : finC c = true) (hm : MonoC c)
    (hne : (c.filter fun p => !elt p.x (.fin x0) && !elt (.fin x0) p.x) ≠ []) :
    evalP (pairsQ (rejoinSplit c (.fin x0))) X = evalP (pairsQ c) X := by
  have hPneg := pairsQ_filter_lt c x0 hf
  have hPpos := pairsQ_filter_gt c x0 hf
  have hPmid := pairsQ_filter_eq c x0 hf
  have hpart := sorted_part3 x0 (pairsQ c) (pairsQ_pairwise hm)
  -- the head and last of the mid bin, at point and at pair level
  have hbt : ∀ p : Pt, p ∈ c →
      (⟨eadd (⟨esub p.x (.fin x0), p.y, []⟩ : Pt).x (.fin x0),
        (⟨esub p.x (.fin x0), p.y, []⟩ : Pt).y, []⟩ : Pt) = ⟨p.x, p.y, []⟩ := by
    intro p hp
    rw [fin_of_isFiniteE (finC_mem hf hp).1]
    simp only [esub_fin, eadd_fin, sub_add_cancel]
  have hmidmem : ∀ p ∈ (c.filter fun p => !elt p.x (.fin x0) && !elt (.fin x0) p.x), p ∈ c :=
    fun p hp => List.mem_of_mem_filter hp
  have hmidx : ∀ u ∈ (pairsQ c).filter (fun u => decide (u.1 = x0)), u.1 = x0 := by
    intro u hu
    simpa using (List.mem_filter.1 hu).2
  -- unfold the re-join with the mid-nonempty characterization of split
  rw [rejoinSplit, split_mid_ne c _ hne]
  simp only [List.map_append, List.map_cons, List.map_nil, List.getLast?_concat,
    List.head?_cons, Option.some.injEq, List.tail_cons]
  rw [map_headD _ _ ptNaN ptNaN hne, map_getLastD _ _ ptNaN ptNaN hne]
  rw [hbt _ (hmidmem _ (headD_mem _ ptNaN hne)), hbt _ (hmidmem _ (getLastD_mem _ ptNaN hne))]
  rw [map_back_tr x0 _ (fun p hp => (finC_mem hf (List.mem_of_mem_filter hp)).1),
    map_back_tr x0 _ (fun p hp => (finC_mem hf (List.mem_of_mem_filter hp)).1)]
  set m0E := (c.filter fun p => !elt p.x (.fin x0) && !elt (.fin x0) p.x).headD ptNaN with hm0E
  set mLE := (c.filter fun p => !elt p.x (.fin x0) && !elt (.fin x0) p.x).getLastD ptNaN with hmLE
  -- pair-level data
  have hpm0 : (toQ m0E.x, toQ m0E.y)
      = ((pairsQ c).filter (fun u => decide (u.1 = x0))).headD (0, 0) := by
    rw [← hPmid, pairsQ]
    rw [map_headD _ _ (0, 0) ptNaN hne]
  have hpmL : (toQ mLE.x, toQ mLE.y)
      = ((pairsQ c).filter (fun u => decide (u.1 = x0))).getLastD (0, 0) := by
    rw [← hPmid, pairsQ]
    rw [map_getLastD _ _ (0, 0) ptNaN hne]
  have hPmidne : (pairsQ c).filter (fun u => decide (u.1 = x0)) ≠ [] := by
    rw [← hPmid]
    simp only [pairsQ, ne_eq, List.map_eq_nil_iff]
    exact hne
  have hm0x : toQ m0E.x = x0 := by
    have := hmidx _ (headD_mem _ (0, 0) hPmidne)
    rw [← hpm0] at this
    exact this
  have hmLx : toQ mLE.x = x0 := by
    have := hmidx _ (getLastD_mem _ (0, 0) hPmidne)
    rw [← hpmL] at this
    exact this
  have hPmid_cons : ((pairsQ c).filter (fun u => decide (u.1 = x0))).headD (0, 0)
      :: ((pairsQ c).filter (fun u => decide (u.1 = x0))).tail
      = (pairsQ c).filter (fun u => decide (u.1 = x0)) :=
    headD_cons_tail _ _ hPmidne
  have hPmid_last : (((pairsQ c).filter (fun u => decide (u.1 = x0))).tail).getLastD
        (((pairsQ c).filter (fun u => decide (u.1 = x0))).headD (0, 0))
      = ((pairsQ c).filter (fun u => decide (u.1 = x0))).getLastD (0, 0) := by
    conv_rhs => rw [← hPmid_cons]
    rw [List.getLastD_cons]
  have htailx : ∀ s ∈ ((pairsQ c).filter (fun u => decide (u.1 = x0))).tail, s.1 = x0 := by
    intro s hs
    refine hmidx s ?_
    rw [← hPmid_cons]
    exact List.mem_cons_of_mem _ hs
  -- case on whether the shared boundary point is a duplicate
  by_cases hcond : (⟨m0E.x, m0E.y, []⟩ : Pt) = ⟨mLE.x, mLE.y, []⟩
  · rw [if_pos hcond]
    have hpair : (toQ m0E.x, toQ m0E.y) = (toQ mLE.x, toQ mLE.y) := by
      injection hcond with h1 h2 h3
      rw [h1, h2]
    rw [pairsQ_append, pairsQ_append, pairsQ_map_strip, pairsQ_map_strip, hPneg, hPpos]
    have hsingle : pairsQ [(⟨m0E.x, m0E.y, []⟩ : Pt)] = [(toQ m0E.x, toQ m0E.y)] := rfl
    rw [hsingle]
    conv_rhs => rw [hpart, List.append_assoc]
    rw [List.append_assoc]
    refine evalP_append_cong _ X (by
      rw [← hPmid_cons]
      simp [hpm0]) ?_
    intro Y
    rw [← hPmid_cons]
    rw [List.singleton_append, List.cons_append]
    rw [hpm0]
    refine eval_vrun_collapse1 _ _ _ x0 ?_ htailx ?_ Y
    · rw [← hpm0]
      exact hm0x
    · rw [hPmid_last, ← hpmL, ← hpm0, hpair]
  · rw [if_neg hcond]
    rw [pairsQ_append, pairsQ_append, pairsQ_map_strip, hPneg]
    have hsingle : pairsQ [(⟨m0E.x, m0E.y, []⟩ : Pt)] = [(toQ m0E.x, toQ m0E.y)] := rfl
    have hconsp : pairsQ ((⟨mLE.x, mLE.y, []⟩ : Pt)
        :: (c.filter fun p => !elt p.x (.fin x0) && elt (.fin x0) p.x).map
          (fun p => (⟨p.x, p.y, []⟩ : Pt)))
        = (toQ mLE.x, toQ mLE.y) :: pairsQ ((c.filter fun p =>
            !elt p.x (.fin x0) && elt (.fin x0) p.x).map fun p => (⟨p.x, p.y, []⟩ : Pt)) := rfl
    rw [hsingle, hconsp, pairsQ_map_strip, hPpos]
    conv_rhs => rw [hpart, List.append_assoc]
    rw [List.append_assoc]
    refine evalP_append_cong _ X (by
      rw [← hPmid_cons]
      simp [hpm0]) ?_
    intro Y
    rw [← hPmid_cons]
    rw [List.singleton_append, List.cons_append]
    rw [hpm0, hpmL]
    refine eval_vrun_collapse2 _ _ _ _ x0 ?_ ?_ htailx hPmid_last Y
    · rw [← hpm0]
      exact hm0x
    · rw [← hpmL]
      exact hmLx

theorem ediv_fin (a b : ℚ) (hb : b ≠ 0) : ediv (.fin a) (.fin b) = .fin (a / b) := by
  simp [ediv, hb]

theorem emul_fin (a b : ℚ) : emul (.fin a) (.fin b) = .fin (a * b) := rfl

/-! ## The re-join of a split, evaluated (mid bin empty) -/

theorem rejoin_eval_midnil (c : List Pt) (x0 X : ℚ) (hf : finC c = true) (hm : MonoC c)
    (hmid : (c.filter fun p => !elt p.x (.fin x0) && !elt (.fin x0) p.x) = []) :
    evalP (pairsQ (rejoinSplit c (.fin x0))) X = evalP (pairsQ c) X := by
  have hPneg := pairsQ_filter_lt c x0 hf
  have hPpos := pairsQ_filter_gt c x0 hf
  have hPmid := pairsQ_filter_eq c x0 hf
  have hPmidnil : (pairsQ c).filter (fun u => decide (u.1 = x0)) = [] := by
    rw [← hPmid, hmid]
    rfl
  have hpart := sorted_part3 x0 (pairsQ c) (pairsQ_pairwise hm)
  rw [hPmidnil, List.append_nil] at hpart
  by_cases hneg : (c.filter fun p => elt p.x (.fin x0)) = []
  · have hPnegnil : (pairsQ c).filter (fun u => decide (u.1 < x0)) = [] := by
      rw [← hPneg, hneg]
      rfl
    rw [rejoinSplit, split_mid_nil_one c _ hmid (fun hc => hc.1 hneg), hneg]
    simp only [List.map_nil, List.nil_append, List.getLast?_nil]
    by_cases hpos : (c.filter fun p => !elt p.x (.fin x0) && elt (.fin x0) p.x) = []
    · rw [hpos]
      simp only [List.map_nil, List.head?_nil, if_true, List.tail_nil]
      rw [hpart, hPnegnil, List.nil_append, ← hPpos, hpos]
    · rw [if_neg (by
        intro hcon
        exact hpos (List.map_eq_nil_iff.1 (List.map_eq_nil_iff.1
          (List.head?_eq_none_iff.1 hcon.symm))))]
      rw [map_back_tr x0 _ (fun p hp => (finC_mem hf (List.mem_of_mem_filter hp)).1)]
      rw [pairsQ_map_strip, hPpos]
      conv_rhs => rw [hpart]
      rw [hPnegnil, List.nil_append]
  · by_cases hpos : (c.filter fun p => !elt p.x (.fin x0) && elt (.fin x0) p.x) = []
    · have hPposnil : (pairsQ c).filter (fun u => decide (x0 < u.1)) = [] := by
        rw [← hPpos, hpos]
        rfl
      rw [rejoinSplit, split_mid_nil_one c _ hmid (fun hc => hc.2 hpos), hpos]
      simp only [List.map_nil, List.head?_nil]
      rw [if_neg (by
        intro hcon
        exact hneg (List.map_eq_nil_iff.1 (List.map_eq_nil_iff.1
          (List.getLast?_eq_none_iff.1 hcon))))]
      rw [List.append_nil]
      rw [map_back_tr x0 _ (fun p hp => (finC_mem hf (List.mem_of_mem_filter hp)).1)]
      rw [pairsQ_map_strip, hPneg]
      conv_rhs => rw [hpart]
      rw [hPposnil, List.append_nil]
    · have hlnmem := getLastD_mem _ ptNaN hneg
      have hphmem := headD_mem _ ptNaN hpos
      have hlnc : (c.filter fun p => elt p.x (.fin x0)).getLastD ptNaN ∈ c :=
        List.mem_of_mem_filter hlnmem
      have hphc : (c.filter fun p => !elt p.x (.fin x0) && elt (.fin x0) p.x).headD ptNaN ∈ c :=
        List.mem_of_mem_filter hphmem
      have hlnx := fin_of_isFiniteE (finC_mem hf hlnc).1
      have hlny := fin_of_isFiniteE (finC_mem hf hlnc).2
      have hphx := fin_of_isFiniteE (finC_mem hf hphc).1
      have hphy := fin_of_isFiniteE (finC_mem hf hphc).2
      have hlq : toQ ((c.filter fun p => elt p.x (.fin x0)).getLastD ptNaN).x < x0 := by
        have hpred := (List.mem_filter.1 hlnmem).2
        rw [hlnx] at hpred
        simpa [elt_fin] using hpred
      have hph : x0 < toQ ((c.filter fun p =>
          !elt p.x (.fin x0) && elt (.fin x0) p.x).headD ptNaN).x := by
        have hpred := (List.mem_filter.1 hphmem).2
        rw [hphx] at hpred
        simp only [elt_fin, Bool.and_eq_true] at hpred
        simpa using hpred.2
      have hd0 : toQ ((c.filter fun p => !elt p.x (.fin x0) && elt (.fin x0) p.x).headD ptNaN).x
          - toQ ((c.filter fun p => elt p.x (.fin x0)).getLastD ptNaN).x ≠ 0 :=
        sub_ne_zero.2 (ne_of_gt (lt_trans hlq hph))
      have hip : interpolate
          (((c.filter fun p => elt p.x (.fin x0)).map fun p =>
            (⟨esub p.x (.fin x0), p.y, []⟩ : Pt)).getLastD ptNaN)
          (((c.filter fun p => !elt p.x (.fin x0) && elt (.fin x0) p.x).map fun p =>
            (⟨esub p.x (.fin x0), p.y, []⟩ : Pt)).headD ptNaN) (.fin 0)
          = ⟨.fin 0, .fin (lerpQ
              (toQ ((c.filter fun p => elt p.x (.fin x0)).getLastD ptNaN).x)
              (toQ ((c.filter fun p => elt p.x (.fin x0)).getLastD ptNaN).y)
              (toQ ((c.filter fun p => !elt p.x (.fin x0) && elt (.fin x0) p.x).headD ptNaN).x)
              (toQ ((c.filter fun p => !elt p.x (.fin x0) && elt (.fin x0) p.x).headD ptNaN).y)
              x0), []⟩ := by
        rw [map_getLastD _ _ ptNaN ptNaN hneg, map_headD _ _ ptNaN ptNaN hpos]
        rw [hlnx, hlny, hphx, hphy]
        dsimp only [interpolate]
        rw [esub_fin, esub_fin, esub_fin]
        have e2 : (toQ ((c.filter fun p =>
            !elt p.x (.fin x0) && elt (.fin x0) p.x).headD ptNaN).x - x0)
            - (toQ ((c.filter fun p => elt p.x (.fin x0)).getLastD ptNaN).x - x0)
            = toQ ((c.filter fun p =>
            !elt p.x (.fin x0) && elt (.fin x0) p.x).headD ptNaN).x
            - toQ ((c.filter fun p => elt p.x (.fin x0)).getLastD ptNaN).x := by ring
        rw [e2, eeq_fin]
        rw [if_neg (by simpa using hd0)]
        simp only [isFiniteE, if_true]
        have e1 : (0 : ℚ) - (toQ ((c.filter fun p =>
            elt p.x (.fin x0)).getLastD ptNaN).x - x0)
            = x0 - toQ ((c.filter fun p => elt p.x (.fin x0)).getLastD ptNaN).x := by ring
        rw [esub_fin, e1, ediv_fin _ _ hd0, esub_fin, emul_fin, eadd_fin]
        rfl
      rw [rejoinSplit, split_mid_nil_both c _ hmid hneg hpos]
      simp only [List.map_append, List.map_cons, List.map_nil, List.getLast?_concat,
        List.head?_cons, Option.some.injEq, List.tail_cons]
      rw [if_true, hip]
      simp only []
      rw [map_back_tr x0 _ (fun p hp => (finC_mem hf (List.mem_of_mem_filter hp)).1),
        map_back_tr x0 _ (fun p hp => (finC_mem hf (List.mem_of_mem_filter hp)).1)]
      rw [pairsQ_append, pairsQ_append, pairsQ_map_strip, pairsQ_map_strip, hPneg, hPpos]
      have hbd : pairsQ [(⟨eadd (.fin 0) (.fin x0), .fin (lerpQ
          (toQ ((c.filter fun p => elt p.x (.fin x0)).getLastD ptNaN).x)
          (toQ ((c.filter fun p => elt p.x (.fin x0)).getLastD ptNaN).y)
          (toQ ((c.filter fun p => !elt p.x (.fin x0) && elt (.fin x0) p.x).headD ptNaN).x)
          (toQ ((c.filter fun p => !elt p.x (.fin x0) && elt (.fin x0) p.x).headD ptNaN).y)
          x0), []⟩ : Pt)]
          = [((x0 : ℚ), lerpQ
          (toQ ((c.filter fun p => elt p.x (.fin x0)).getLastD ptNaN).x)
          (toQ ((c.filter fun p => elt p.x (.fin x0)).getLastD ptNaN).y)
          (toQ ((c.filter fun p => !elt p.x (.fin x0) && elt (.fin x0) p.x).headD ptNaN).x)
          (toQ ((c.filter fun p => !elt p.x (.fin x0) && elt (.fin x0) p.x).headD ptNaN).y)
          x0)] := by
        simp [pairsQ, eadd_fin, toQ]
      rw [hbd]
      have hPnegne : (pairsQ c).filter (fun u => decide (u.1 < x0)) ≠ [] := by
        rw [← hPneg]
        simp only [pairsQ, ne_eq, List.map_eq_nil_iff]
        exact hneg
      have hPposne : (pairsQ c).filter (fun u => decide (x0 < u.1)) ≠ [] := by
        rw [← hPpos]
        simp only [pairsQ, ne_eq, List.map_eq_nil_iff]
        exact hpos
      have hlastp : ((pairsQ c).filter (fun u => decide (u.1 < x0))).getLastD (0, 0)
          = (toQ ((c.filter fun p => elt p.x (.fin x0)).getLastD ptNaN).x,
             toQ ((c.filter fun p => elt p.x (.fin x0)).getLastD ptNaN).y) := by
        rw [← hPneg, pairsQ]
        rw [map_getLastD _ _ (0, 0) ptNaN hneg]
      have hheadp : ((pairsQ c).filter (fun u => decide (x0 < u.1))).headD (0, 0)
          = (toQ ((c.filter fun p => !elt p.x (.fin x0) && elt (.fin x0) p.x).headD ptNaN).x,
             toQ ((c.filter fun p => !elt p.x (.fin x0) && elt (.fin x0) p.x).headD ptNaN).y) := by
        rw [← hPpos, pairsQ]
        rw [map_headD _ _ (0, 0) ptNaN hpos]
      have hNdec : ((pairsQ c).filter (fun u => decide (u.1 < x0))).dropLast
          ++ [(toQ ((c.filter fun p => elt p.x (.fin x0)).getLastD ptNaN).x,
             toQ ((c.filter fun p => elt p.x (.fin x0)).getLastD ptNaN).y)]
          = (pairsQ c).filter (fun u => decide (u.1 < x0)) := by
        rw [← hlastp]
        exact dropLast_append_getLastD _ _ hPnegne
      have hPdec : ((toQ ((c.filter fun p =>
            !elt p.x (.fin x0) && elt (.fin x0) p.x).headD ptNaN).x,
           toQ ((c.filter fun p => !elt p.x (.fin x0) && elt (.fin x0) p.x).headD ptNaN).y)
            : ℚ × ℚ)
          :: ((pairsQ c).filter (fun u => decide (x0 < u.1))).tail
          = (pairsQ c).filter (fun u => decide (x0 < u.1)) := by
        rw [← hheadp]
        exact headD_cons_tail _ _ hPposne
      conv_rhs => rw [hpart]
      rw [← hNdec, ← hPdec]
      simp only [List.append_assoc, List.singleton_append, List.cons_append]
      refine evalP_append_cong _ X rfl ?_
      intro Y
      exact evalP_collinear_ins _ _ x0 _ Y hlq hph

/-! ## Termination and output bound of the two-pointer merge -/

theorem finXC_tail {q : Pt} {t : List Pt} (h : finXC (q :: t) = true) : finXC t = true := by
  simp only [finXC, List.all_cons, Bool.and_eq_true] at h
  exact h.2

theorem finXC_head {q : Pt} {t : List Pt} (h : finXC (q :: t) = true) :
    q.x = .fin (toQ q.x) :=
  fin_of_isFiniteE (finXC_mem h (by simp))

theorem bool_ne_true {b : Bool} (h : b = false) : ¬(b = true) := by
  simp [h]

theorem sum2Aux_total : ∀ (fuel : Nat) (a0 b0 : ENum × ENum) (ra rb : List Pt),
    finXC ra = true → finXC rb = true → ra.length + rb.length ≤ fuel →
    ∃ out, sum2Aux fuel a0 b0 ra rb = some out ∧ out.length ≤ ra.length + rb.length := by
  intro fuel
  induction fuel with
  | zero =>
    intro a0 b0 ra rb _ _ hlen
    have hra : ra = [] := by cases ra <;> simp_all
    have hrb : rb = [] := by cases rb <;> simp_all
    subst hra
    subst hrb
    exact ⟨[], by rw [sum2Aux]; simp, by simp⟩
  | succ f ih =>
    intro a0 b0 ra rb hfa hfb hlen
    by_cases hboth : ra = [] ∧ rb = []
    · obtain ⟨h1, h2⟩ := hboth
      subst h1
      subst h2
      exact ⟨[], by rw [sum2Aux]; simp, by simp⟩
    · rw [sum2Aux, if_neg hboth]
      cases ra with
      | nil =>
        cases rb with
        | nil => exact absurd ⟨rfl, rfl⟩ hboth
        | cons q t =>
          have hqx := finXC_head hfb
          have heqa : eeq ENum.pinf (emin ENum.pinf q.x) = false := by
            rw [hqx]
            rfl
          have heqb : eeq q.x (emin ENum.pinf q.x) = true := by
            rw [hqx]
            simp [emin, eeq]
          obtain ⟨out', h1, h2⟩ := ih a0 (q.x, q.y) [] t hfa (finXC_tail hfb)
            (by simp at hlen ⊢; omega)
          dsimp only [sHead]
          rw [if_neg (bool_ne_true heqa), if_pos heqb]
          simp only [List.tail_cons]
          rw [h1]
          refine ⟨_, rfl, ?_⟩
          simp only [List.length_cons, List.length_nil] at h2 ⊢
          omega
      | cons p s =>
        have hpx := finXC_head hfa
        cases rb with
        | nil =>
          have heqb : eeq ENum.pinf (emin p.x ENum.pinf) = false := by
            rw [hpx]
            rfl
          have heqa : eeq p.x (emin p.x ENum.pinf) = true := by
            rw [hpx]
            simp [emin, eeq]
          obtain ⟨out', h1, h2⟩ := ih (p.x, p.y) b0 s [] (finXC_tail hfa) hfb
            (by simp at hlen ⊢; omega)
          dsimp only [sHead]
          rw [if_pos heqa, if_neg (bool_ne_true heqb)]
          simp only [List.tail_cons]
          rw [h1]
          refine ⟨_, rfl, ?_⟩
          simp only [List.length_cons, List.length_nil] at h2 ⊢
          omega
        | cons q t =>
          have hqx := finXC_head hfb
          by_cases hab : toQ p.x ≤ toQ q.x
          · have hmin : emin p.x q.x = .fin (toQ p.x) := by
              rw [hpx, hqx, emin_fin, min_eq_left hab]
              rfl
            have heqa : eeq p.x (emin p.x q.x) = true := by
              rw [hmin, hpx, eeq_fin]
              simp
              rfl
            by_cases hba : toQ q.x ≤ toQ p.x
            · have heqb : eeq q.x (emin p.x q.x) = true := by
                rw [hmin, hqx, eeq_fin]
                simp [le_antisymm hba hab]
              obtain ⟨out', h1, h2⟩ := ih (p.x, p.y) (q.x, q.y) s t
                (finXC_tail hfa) (finXC_tail hfb) (by simp at hlen ⊢; omega)
              dsimp only [sHead]
              rw [if_pos heqa, if_pos heqb]
              simp only [List.tail_cons]
              rw [h1]
              refine ⟨_, rfl, ?_⟩
              simp only [List.length_cons] at h2 ⊢
              omega
            · have heqb : eeq q.x (emin p.x q.x) = false := by
                rw [hmin, hqx, eeq_fin]
                simp only [decide_eq_false_iff_not]
                intro hq
                exact hba (le_of_eq hq)
              obtain ⟨out', h1, h2⟩ := ih (p.x, p.y) b0 s (q :: t)
                (finXC_tail hfa) hfb (by simp at hlen ⊢; omega)
              dsimp only [sHead]
              rw [if_pos heqa, if_neg (bool_ne_true heqb)]
              simp only [List.tail_cons]
              rw [h1]
              refine ⟨_, rfl, ?_⟩
              simp only [List.length_cons] at h2 ⊢
              omega
          · push_neg at hab
            have hmin : emin p.x q.x = .fin (toQ q.x) := by
              rw [hpx, hqx, emin_fin, min_eq_right (le_of_lt hab)]
              rfl
            have heqa : eeq p.x (emin p.x q.x) = false := by
              rw [hmin, hpx, eeq_fin]
              simp only [decide_eq_false_iff_not]
              intro hp
              exact ne_of_gt hab hp
            have heqb : eeq q.x (emin p.x q.x) = true := by
              rw [hmin, hqx, eeq_fin]
              simp
              rfl
            obtain ⟨out', h1, h2⟩ := ih a0 (q.x, q.y) (p :: s) t hfa
              (finXC_tail hfb) (by simp at hlen ⊢; omega)
            dsimp only [sHead]
            rw [if_neg (bool_ne_true heqa), if_pos heqb]
            simp only [List.tail_cons]
            rw [h1]
            refine ⟨_, rfl, ?_⟩
            simp only [List.length_cons] at h2 ⊢
            omega

/-! ## Monotonicity-preservation lemmas (claim C9) -/

theorem interpolate_x (a b : Pt) (xv : ENum) : (interpolate a b xv).x = xv := by
  simp only [interpolate]
  split
  · rfl
  · split <;> rfl

theorem elt_true_lt {a b : ENum} (ha : isFiniteE a = true) (hb : isFiniteE b = true)
    (h : elt a b = true) : toQ a < toQ b := by
  rw [fin_of_isFiniteE ha, fin_of_isFiniteE hb, elt_fin] at h
  exact of_decide_eq_true h

theorem elt_false_le {a b : ENum} (ha : isFiniteE a = true) (hb : isFiniteE b = true)
    (h : elt a b = false) : toQ b ≤ toQ a := by
  rw [fin_of_isFiniteE ha, fin_of_isFiniteE hb, elt_fin] at h
  exact le_of_not_lt (of_decide_eq_false h)

theorem mono_cons_head (a : Pt) (m : List Pt) (hm : MonoC m)
    (h : ∀ p ∈ m.head?, leX a p) : MonoC (a :: m) :=
  List.chain'_cons'.2 ⟨h, hm⟩

theorem mono_concat_last (m : List Pt) (b : Pt) (hm : MonoC m)
    (h : ∀ p ∈ m.getLast?, leX p b) : MonoC (m ++ [b]) := by
  rw [MonoC, List.chain'_append]
  refine ⟨hm, List.chain'_singleton _, ?_⟩
  intro x hx y hy
  simp only [List.head?_cons, Option.mem_def, Option.some.injEq] at hy
  subst hy
  exact h x hx

theorem mono_filter_strip (c : List Pt) (hm : MonoC c) (pr : Pt → Bool) :
    MonoC ((c.filter pr).map fun p => (⟨p.x, p.y, []⟩ : Pt)) := by
  rw [MonoC, List.chain'_iff_pairwise, List.pairwise_map]
  exact ((List.chain'_iff_pairwise.1 hm).filter pr).imp fun h => h

theorem mono_filter_tr (c : List Pt) (hm : MonoC c) (hf : finC c = true)
    (pr : Pt → Bool) (x0 : ℚ) :
    MonoC ((c.filter pr).map fun p => (⟨esub p.x (.fin x0), p.y, []⟩ : Pt)) := by
  rw [MonoC, List.chain'_iff_pairwise, List.pairwise_map]
  refine ((List.chain'_iff_pairwise.1 hm).filter pr).imp_of_mem ?_
  intro p q hp hq h
  have hpf := (finC_mem hf (List.mem_of_mem_filter hp)).1
  have hqf := (finC_mem hf (List.mem_of_mem_filter hq)).1
  show toQ (esub p.x (.fin x0)) ≤ toQ (esub q.x (.fin x0))
  rw [fin_of_isFiniteE hpf, fin_of_isFiniteE hqf, esub_fin, esub_fin]
  exact sub_le_sub_right h x0

theorem filterMap_getD_sublist : ∀ (k s : Nat) (l : List Pt) (f : Nat → Option Pt) (d : Pt),
    (∀ i, f i = none ∨ f i = some (l.getD i d)) → s + k ≤ l.length →
    List.Sublist ((List.range' s k).filterMap f) ((l.drop s).take k) := by
  intro k
  induction k with
  | zero => intro s l f d _ _; simp
  | succ k ih =>
    intro s l f d hfd hsk
    have hs : s < l.length := by omega
    rw [List.range'_succ, List.drop_eq_getElem_cons hs, List.take_succ_cons]
    cases hfd s with
    | inl h =>
      rw [List.filterMap_cons_none h]
      exact (ih (s + 1) l f d hfd (by omega)).cons _
    | inr h =>
      rw [List.filterMap_cons_some h, List.getD_eq_getElem l d hs]
      exact (ih (s + 1) l f d hfd (by omega)).cons₂ _

theorem reduce_sublist (c0 c1 : Pt) (r : List Pt) :
    List.Sublist (reduce (c0 :: c1 :: r)) (c0 :: c1 :: r) := by
  have hM := filterMap_getD_sublist ((c0 :: c1 :: r).length - 2) 1 (c0 :: c1 :: r)
    (fun i => if collin3 ((c0 :: c1 :: r).getD (i - 1) ptNaN) ((c0 :: c1 :: r).getD i ptNaN)
        ((c0 :: c1 :: r).getD (i + 1) ptNaN)
      then none else some ((c0 :: c1 :: r).getD i ptNaN))
    ptNaN
    (fun i => by
      by_cases h : collin3 ((c0 :: c1 :: r).getD (i - 1) ptNaN) ((c0 :: c1 :: r).getD i ptNaN)
          ((c0 :: c1 :: r).getD (i + 1) ptNaN) = true
      · exact Or.inl (if_pos h)
      · exact Or.inr (if_neg h))
    (by simp; omega)
  have hdrop : (c0 :: c1 :: r).drop 1 = c1 :: r := rfl
  have hlen2 : (c0 :: c1 :: r).length - 2 = (c1 :: r).length - 1 := by simp
  rw [hdrop, hlen2, ← List.dropLast_eq_take] at hM
  have hlast : (c0 :: c1 :: r).getLastD ptNaN = (c1 :: r).getLastD ptNaN := by
    rw [List.getLastD_cons, getLastD_irrel (c1 :: r) c0 ptNaN (by simp)]
  have hsub : List.Sublist (((List.range' 1 ((c0 :: c1 :: r).length - 2)).filterMap fun i =>
        if collin3 ((c0 :: c1 :: r).getD (i - 1) ptNaN) ((c0 :: c1 :: r).getD i ptNaN)
            ((c0 :: c1 :: r).getD (i + 1) ptNaN)
        then none else some ((c0 :: c1 :: r).getD i ptNaN))
      ++ [(c0 :: c1 :: r).getLastD ptNaN]) (c1 :: r) := by
    rw [hlast]
    have := hM.append (List.Sublist.refl [(c1 :: r).getLastD ptNaN])
    rwa [dropLast_append_getLastD (c1 :: r) ptNaN (by simp)] at this
  exact hsub.cons₂ c0

theorem reduce_mono {c : List Pt} (hm : MonoC c) : MonoC (reduce c) := by
  match c, hm with
  | [], _ => exact List.chain'_nil
  | [p], _ =>
    show List.Chain' leX [p, p]
    exact List.chain'_cons.2 ⟨le_refl _, List.chain'_singleton _⟩
  | c0 :: c1 :: r, hm => exact hm.sublist (reduce_sublist c0 c1 r)

theorem truncate_eq (c : List Pt) (mn mx : ENum) :
    truncate c mn mx =
      tMid2 (tNeg c mn)
        (tMid1 (tNeg c mn) (tMid0 c mn mx) (tPos c mn mx) mn)
        (tPos c mn mx) mx := rfl

theorem tMid0_fin {c : List Pt} {mn mx : ENum} (hf : finC c = true) {p : Pt}
    (hp : p ∈ tMid0 c mn mx) : isFiniteE p.x = true := by
  rw [tMid0] at hp
  obtain ⟨q, hq, rfl⟩ := List.mem_map.1 hp
  exact (finC_mem hf (List.mem_of_mem_filter hq)).1

theorem tMid1_mem {neg mid0 pos : List Pt} {mn : ENum} {p : Pt}
    (hp : p ∈ tMid1 neg mid0 pos mn) : p ∈ mid0 ∨ p.x = mn := by
  rw [tMid1] at hp
  split at hp
  · split at hp
    · split at hp
      · rcases List.mem_cons.1 hp with h | h
        · right
          rw [h]
          exact interpolate_x _ _ _
        · left; exact h
      · left; exact hp
    · left; exact hp
  · left; exact hp

theorem tMid1_mono (neg mid0 pos : List Pt) (mn : ENum)
    (h0 : MonoC mid0) (hlo : ∀ p ∈ mid0, toQ mn ≤ toQ p.x) :
    MonoC (tMid1 neg mid0 pos mn) := by
  rw [tMid1]
  split
  · split
    · split
      · refine mono_cons_head _ _ h0 ?_
        intro p hp
        show toQ (interpolate (neg.getLastD ptNaN) _ mn).x ≤ toQ p.x
        rw [interpolate_x]
        exact hlo p (List.mem_of_mem_head? hp)
      · exact h0
    · exact h0
  · exact h0

theorem tMid2_mono (neg mid1 pos : List Pt) (mx : ENum)
    (h1 : MonoC mid1)
    (hfin : ∀ p ∈ mid1, isFiniteE p.x = true) (hmx : isFiniteE mx = true) :
    MonoC (tMid2 neg mid1 pos mx) := by
  rw [tMid2]
  split
  · split
    · rename_i lhs heq
      split
      · rename_i hguard
        cases hl : mid1.getLast? with
        | none =>
          rw [List.getLast?_eq_none_iff.1 hl]
          exact List.chain'_singleton _
        | some w =>
          rw [hl] at heq
          simp only [Option.orElse, Option.some.injEq] at heq
          refine mono_concat_last _ _ h1 ?_
          intro p hp
          rw [hl] at hp
          have hpw : p = w := (by simpa using hp : w = p).symm
          have hpm : p ∈ mid1 := by
            refine List.mem_of_mem_getLast? ?_
            rw [hl, hpw]
            rfl
          show toQ p.x ≤ toQ (interpolate lhs (pos.headD ptNaN) mx).x
          rw [interpolate_x]
          have hlt : elt p.x mx = true := by
            rw [hpw, heq]
            exact hguard
          exact le_of_lt (elt_true_lt (hfin p hpm) hmx hlt)
      · exact h1
    · exact h1
  · exact h1

theorem truncate_mono (c : List Pt) (mn mx : ℚ) (hf : finC c = true) (hm : MonoC c) :
    MonoC (truncate c (.fin mn) (.fin mx)) := by
  rw [truncate_eq]
  have h0 : MonoC (tMid0 c (.fin mn) (.fin mx)) := by
    rw [tMid0]
    exact mono_filter_strip c hm _
  have hlo : ∀ p ∈ tMid0 c (.fin mn) (.fin mx), toQ (ENum.fin mn) ≤ toQ p.x := by
    intro p hp
    rw [tMid0] at hp
    obtain ⟨q, hq, rfl⟩ := List.mem_map.1 hp
    have hqf := (finC_mem hf (List.mem_of_mem_filter hq)).1
    have hpr := List.of_mem_filter hq
    simp only [Bool.and_eq_true, Bool.not_eq_true'] at hpr
    show toQ (ENum.fin mn) ≤ toQ q.x
    exact elt_false_le hqf rfl hpr.1
  have h1 := tMid1_mono (tNeg c (.fin mn)) (tMid0 c (.fin mn) (.fin mx))
    (tPos c (.fin mn) (.fin mx)) (.fin mn) h0 hlo
  have hfin1 : ∀ p ∈ tMid1 (tNeg c (.fin mn)) (tMid0 c (.fin mn) (.fin mx))
      (tPos c (.fin mn) (.fin mx)) (.fin mn), isFiniteE p.x = true := by
    intro p hp
    rcases tMid1_mem hp with h | h
    · exact tMid0_fin hf h
    · rw [h]
      rfl
  exact tMid2_mono _ _ _ _ h1 hfin1 rfl

theorem neg_mem_lt {c : List Pt} (hf : finC c = true) {x0 : ℚ} {q : Pt}
    (hq : q ∈ (c.filter fun p => elt p.x (.fin x0)).map
      fun p => (⟨esub p.x (.fin x0), p.y, []⟩ : Pt)) : toQ q.x < 0 := by
  obtain ⟨p, hp, rfl⟩ := List.mem_map.1 hq
  have hpf := (finC_mem hf (List.mem_of_mem_filter hp)).1
  have hpr := List.of_mem_filter hp
  have hlt : toQ p.x < x0 := elt_true_lt hpf (rfl : isFiniteE (ENum.fin x0) = true) hpr
  show toQ (esub p.x (.fin x0)) < 0
  rw [fin_of_isFiniteE hpf, esub_fin]
  exact sub_neg.2 hlt

theorem pos_mem_gt {c : List Pt} (hf : finC c = true) {x0 : ℚ} {q : Pt}
    (hq : q ∈ (c.filter fun p => !elt p.x (.fin x0) && elt (.fin x0) p.x).map
      fun p => (⟨esub p.x (.fin x0), p.y, []⟩ : Pt)) : 0 < toQ q.x := by
  obtain ⟨p, hp, rfl⟩ := List.mem_map.1 hq
  have hpf := (finC_mem hf (List.mem_of_mem_filter hp)).1
  have hpr := List.of_mem_filter hp
  simp only [Bool.and_eq_true, Bool.not_eq_true'] at hpr
  have hlt : x0 < toQ p.x := elt_true_lt (rfl : isFiniteE (ENum.fin x0) = true) hpf hpr.2
  show 0 < toQ (esub p.x (.fin x0))
  rw [fin_of_isFiniteE hpf, esub_fin]
  exact sub_pos.2 hlt

theorem mid_mem_eq {c : List Pt} (hf : finC c = true) {x0 : ℚ} {q : Pt}
    (hq : q ∈ (c.filter fun p => !elt p.x (.fin x0) && !elt (.fin x0) p.x).map
      fun p => (⟨esub p.x (.fin x0), p.y, []⟩ : Pt)) : toQ q.x = 0 := by
  obtain ⟨p, hp, rfl⟩ := List.mem_map.1 hq
  have hpf := (finC_mem hf (List.mem_of_mem_filter hp)).1
  have hpr := List.of_mem_filter hp
  simp only [Bool.and_eq_true, Bool.not_eq_true'] at hpr
  have h1 : x0 ≤ toQ p.x := elt_false_le hpf (rfl : isFiniteE (ENum.fin x0) = true) hpr.1
  have h2 : toQ p.x ≤ x0 := elt_false_le (rfl : isFiniteE (ENum.fin x0) = true) hpf hpr.2
  show toQ (esub p.x (.fin x0)) = 0
  rw [fin_of_isFiniteE hpf, esub_fin]
  exact sub_eq_zero_of_eq (le_antisymm h2 h1)

theorem split_mono_left (c : List Pt) (x0 : ℚ) (hf : finC c = true) (hm : MonoC c) :
    MonoC (split c (.fin x0)).1 := by
  have hneg : MonoC ((c.filter fun p => elt p.x (.fin x0)).map
      fun p => (⟨esub p.x (.fin x0), p.y, []⟩ : Pt)) := mono_filter_tr c hm hf _ x0
  by_cases hmid : (c.filter fun p => !elt p.x (.fin x0) && !elt (.fin x0) p.x) = []
  · by_cases hnp : (c.filter fun p => elt p.x (.fin x0)) ≠ [] ∧
        (c.filter fun p => !elt p.x (.fin x0) && elt (.fin x0) p.x) ≠ []
    · rw [split_mid_nil_both c _ hmid hnp.1 hnp.2]
      refine mono_concat_last _ _ hneg ?_
      intro q hq
      have hqm := List.mem_of_mem_getLast? hq
      show toQ q.x ≤ toQ (interpolate _ _ (.fin 0)).x
      rw [interpolate_x]
      exact le_of_lt (neg_mem_lt hf hqm)
    · rw [split_mid_nil_one c _ hmid hnp]
      exact hneg
  · rw [split_mid_ne c _ hmid]
    refine mono_concat_last _ _ hneg ?_
    intro q hq
    have hqm := List.mem_of_mem_getLast? hq
    have hmm : ((c.filter fun p => !elt p.x (.fin x0) && !elt (.fin x0) p.x).map
        fun p => (⟨esub p.x (.fin x0), p.y, []⟩ : Pt)).headD ptNaN
        ∈ (c.filter fun p => !elt p.x (.fin x0) && !elt (.fin x0) p.x).map
          fun p => (⟨esub p.x (.fin x0), p.y, []⟩ : Pt) :=
      headD_mem _ _ (by simpa using hmid)
    show toQ q.x ≤ toQ (((c.filter fun p => !elt p.x (.fin x0) && !elt (.fin x0) p.x).map
        fun p => (⟨esub p.x (.fin x0), p.y, []⟩ : Pt)).headD ptNaN).x
    rw [mid_mem_eq hf hmm]
    exact le_of_lt (neg_mem_lt hf hqm)

theorem split_mono_right (c : List Pt) (x0 : ℚ) (hf : finC c = true) (hm : MonoC c) :
    MonoC (split c (.fin x0)).2 := by
  have hpos : MonoC ((c.filter fun p => !elt p.x (.fin x0) && elt (.fin x0) p.x).map
      fun p => (⟨esub p.x (.fin x0), p.y, []⟩ : Pt)) := mono_filter_tr c hm hf _ x0
  by_cases hmid : (c.filter fun p => !elt p.x (.fin x0) && !elt (.fin x0) p.x) = []
  · by_cases hnp : (c.filter fun p => elt p.x (.fin x0)) ≠ [] ∧
        (c.filter fun p => !elt p.x (.fin x0) && elt (.fin x0) p.x) ≠ []
    · rw [split_mid_nil_both c _ hmid hnp.1 hnp.2]
      refine mono_cons_head _ _ hpos ?_
      intro q hq
      have hqm := List.mem_of_mem_head? hq
      show toQ (interpolate _ _ (.fin 0)).x ≤ toQ q.x
      rw [interpolate_x]
      exact le_of_lt (pos_mem_gt hf hqm)
    · rw [split_mid_nil_one c _ hmid hnp]
      exact hpos
  · rw [split_mid_ne c _ hmid]
    refine mono_cons_head _ _ hpos ?_
    intro q hq
    have hqm := List.mem_of_mem_head? hq
    have hmm : ((c.filter fun p => !elt p.x (.fin x0) && !elt (.fin x0) p.x).map
        fun p => (⟨esub p.x (.fin x0), p.y, []⟩ : Pt)).getLastD ptNaN
        ∈ (c.filter fun p => !elt p.x (.fin x0) && !elt (.fin x0) p.x).map
          fun p => (⟨esub p.x (.fin x0), p.y, []⟩ : Pt) :=
      getLastD_mem _ _ (by simpa using hmid)
    show toQ (((c.filter fun p => !elt p.x (.fin x0) && !elt (.fin x0) p.x).map
        fun p => (⟨esub p.x (.fin x0), p.y, []⟩ : Pt)).getLastD ptNaN).x ≤ toQ q.x
    rw [mid_mem_eq hf hmm]
    exact le_of_lt (pos_mem_gt hf hqm)

theorem sum2Aux_mono : ∀ (fuel : Nat) (a0 b0 : ENum × ENum) (ra rb : List Pt)
    (out : List Pt) (z : ℚ),
    finXC ra = true → finXC rb = true → MonoC ra → MonoC rb →
    (∀ p ∈ ra.head?, z ≤ toQ p.x) → (∀ p ∈ rb.head?, z ≤ toQ p.x) →
    sum2Aux fuel a0 b0 ra rb = some out →
    MonoC out ∧ (∀ p ∈ out, z ≤ toQ p.x) ∧ finXC out = true := by
  intro fuel
  induction fuel with
  | zero =>
    intro a0 b0 ra rb out z _ _ _ _ _ _ h
    by_cases hboth : ra = [] ∧ rb = []
    · rw [sum2Aux, if_pos hboth] at h
      cases h
      exact ⟨List.chain'_nil, by simp, rfl⟩
    · rw [sum2Aux, if_neg hboth] at h
      cases h
  | succ f ih =>
    intro a0 b0 ra rb out z hfa hfb hma hmb hza hzb h
    by_cases hboth : ra = [] ∧ rb = []
    · rw [sum2Aux, if_pos hboth] at h
      cases h
      exact ⟨List.chain'_nil, by simp, rfl⟩
    · rw [sum2Aux, if_neg hboth] at h
      cases ra with
      | nil =>
        cases rb with
        | nil => exact absurd ⟨rfl, rfl⟩ hboth
        | cons q t =>
          have hqx := finXC_head hfb
          have heqa : eeq ENum.pinf (emin ENum.pinf q.x) = false := by
            rw [hqx]
            rfl
          have heqb : eeq q.x (emin ENum.pinf q.x) = true := by
            rw [hqx]
            simp [emin, eeq]
          dsimp only [sHead] at h
          rw [if_neg (bool_ne_true heqa), if_pos heqb] at h
          simp only [List.tail_cons] at h
          rw [Option.map_eq_some'] at h
          obtain ⟨out', h1, hout⟩ := h
          subst hout
          have hx1 : emin ENum.pinf q.x = ENum.fin (toQ q.x) := by
            rw [hqx]
            rfl
          have hmb' := List.chain'_cons'.1 hmb
          obtain ⟨hmo', hlo', hfx'⟩ := ih a0 (q.x, q.y) [] t out' (toQ q.x)
            hfa (finXC_tail hfb) List.chain'_nil hmb'.2
            (by intro r hr; simp at hr)
            (fun r hr => hmb'.1 r hr) h1
          refine ⟨?_, ?_, ?_⟩
          · refine List.chain'_cons'.2 ⟨?_, hmo'⟩
            intro r hr
            show toQ (emin ENum.pinf q.x) ≤ toQ r.x
            rw [hx1]
            exact hlo' r (List.mem_of_mem_head? hr)
          · intro r hr
            rcases List.mem_cons.1 hr with hr | hr
            · rw [hr]
              show z ≤ toQ (emin ENum.pinf q.x)
              rw [hx1]
              exact hzb q rfl
            · exact le_trans (hzb q rfl) (hlo' r hr)
          · simp only [finXC, List.all_cons, Bool.and_eq_true]
            exact ⟨by rw [hx1]; rfl, hfx'⟩
      | cons p s =>
        have hpx := finXC_head hfa
        have hma' := List.chain'_cons'.1 hma
        cases rb with
        | nil =>
          have heqb : eeq ENum.pinf (emin p.x ENum.pinf) = false := by
            rw [hpx]
            rfl
          have heqa : eeq p.x (emin p.x ENum.pinf) = true := by
            rw [hpx]
            simp [emin, eeq]
          dsimp only [sHead] at h
          rw [if_pos heqa, if_neg (bool_ne_true heqb)] at h
          simp only [List.tail_cons] at h
          rw [Option.map_eq_some'] at h
          obtain ⟨out', h1, hout⟩ := h
          subst hout
          have hx1 : emin p.x ENum.pinf = ENum.fin (toQ p.x) := by
            rw [hpx]
            rfl
          obtain ⟨hmo', hlo', hfx'⟩ := ih (p.x, p.y) b0 s [] out' (toQ p.x)
            (finXC_tail hfa) hfb hma'.2 List.chain'_nil
            (fun r hr => hma'.1 r hr)
            (by intro r hr; simp at hr) h1
          refine ⟨?_, ?_, ?_⟩
          · refine List.chain'_cons'.2 ⟨?_, hmo'⟩
            intro r hr
            show toQ (emin p.x ENum.pinf) ≤ toQ r.x
            rw [hx1]
            exact hlo' r (List.mem_of_mem_head? hr)
          · intro r hr
            rcases List.mem_cons.1 hr with hr | hr
            · rw [hr]
              show z ≤ toQ (emin p.x ENum.pinf)
              rw [hx1]
              exact hza p rfl
            · exact le_trans (hza p rfl) (hlo' r hr)
          · simp only [finXC, List.all_cons, Bool.and_eq_true]
            exact ⟨by rw [hx1]; rfl, hfx'⟩
        | cons q t =>
          have hqx := finXC_head hfb
          have hmb' := List.chain'_cons'.1 hmb
          by_cases hab : toQ p.x ≤ toQ q.x
          · have hmin : emin p.x q.x = .fin (toQ p.x) := by
              rw [hpx, hqx, emin_fin, min_eq_left hab]
              rfl
            have heqa : eeq p.x (emin p.x q.x) = true := by
              rw [hmin, hpx, eeq_fin]
              simp
              rfl
            by_cases hba : toQ q.x ≤ toQ p.x
            · have heq : toQ q.x = toQ p.x := le_antisymm hba hab
              have heqb : eeq q.x (emin p.x q.x) = true := by
                rw [hmin, hqx, eeq_fin]
                simp [le_antisymm hba hab]
              dsimp only [sHead] at h
              rw [if_pos heqa, if_pos heqb] at h
              simp only [List.tail_cons] at h
              rw [Option.map_eq_some'] at h
              obtain ⟨out', h1, hout⟩ := h
              subst hout
              obtain ⟨hmo', hlo', hfx'⟩ := ih (p.x, p.y) (q.x, q.y) s t out' (toQ p.x)
                (finXC_tail hfa) (finXC_tail hfb) hma'.2 hmb'.2
                (fun r hr => hma'.1 r hr)
                (by
                  intro r hr
                  have hb := hmb'.1 r hr
                  rw [← heq]
                  exact hb) h1
              refine ⟨?_, ?_, ?_⟩
              · refine List.chain'_cons'.2 ⟨?_, hmo'⟩
                intro r hr
                show toQ (emin p.x q.x) ≤ toQ r.x
                rw [hmin]
                exact hlo' r (List.mem_of_mem_head? hr)
              · intro r hr
                rcases List.mem_cons.1 hr with hr | hr
                · rw [hr]
                  show z ≤ toQ (emin p.x q.x)
                  rw [hmin]
                  exact hza p rfl
                · exact le_trans (hza p rfl) (hlo' r hr)
              · simp only [finXC, List.all_cons, Bool.and_eq_true]
                exact ⟨by rw [hmin]; rfl, hfx'⟩
            · have heqb : eeq q.x (emin p.x q.x) = false := by
                rw [hmin, hqx, eeq_fin]
                simp only [decide_eq_false_iff_not]
                intro hq
                exact hba (le_of_eq hq)
              dsimp only [sHead] at h
              rw [if_pos heqa, if_neg (bool_ne_true heqb)] at h
              simp only [List.tail_cons] at h
              rw [Option.map_eq_some'] at h
              obtain ⟨out', h1, hout⟩ := h
              subst hout
              obtain ⟨hmo', hlo', hfx'⟩ := ih (p.x, p.y) b0 s (q :: t) out' (toQ p.x)
                (finXC_tail hfa) hfb hma'.2 hmb
                (fun r hr => hma'.1 r hr)
                (by
                  intro r hr
                  simp only [List.head?_cons, Option.mem_def, Option.some.injEq] at hr
                  subst hr
                  exact hab) h1
              refine ⟨?_, ?_, ?_⟩
              · refine List.chain'_cons'.2 ⟨?_, hmo'⟩
                intro r hr
                show toQ (emin p.x q.x) ≤ toQ r.x
                rw [hmin]
                exact hlo' r (List.mem_of_mem_head? hr)
              · intro r hr
                rcases List.mem_cons.1 hr with hr | hr
                · rw [hr]
                  show z ≤ toQ (emin p.x q.x)
                  rw [hmin]
                  exact hza p rfl
                · exact le_trans (hza p rfl) (hlo' r hr)
              · simp only [finXC, List.all_cons, Bool.and_eq_true]
                exact ⟨by rw [hmin]; rfl, hfx'⟩
          · push_neg at hab
            have hmin : emin p.x q.x = .fin (toQ q.x) := by
              rw [hpx, hqx, emin_fin, min_eq_right (le_of_lt hab)]
              rfl
            have heqa : eeq p.x (emin p.x q.x) = false := by
              rw [hmin, hpx, eeq_fin]
              simp only [decide_eq_false_iff_not]
              intro hp
              exact ne_of_gt hab hp
            have heqb : eeq q.x (emin p.x q.x) = true := by
              rw [hmin, hqx, eeq_fin]
              simp
              rfl
            dsimp only [sHead] at h
            rw [if_neg (bool_ne_true heqa), if_pos heqb] at h
            simp only [List.tail_cons] at h
            rw [Option.map_eq_some'] at h
            obtain ⟨out', h1, hout⟩ := h
            subst hout
            obtain ⟨hmo', hlo', hfx'⟩ := ih a0 (q.x, q.y) (p :: s) t out' (toQ q.x)
              hfa (finXC_tail hfb) hma hmb'.2
              (by
                intro r hr
                simp only [List.head?_cons, Option.mem_def, Option.some.injEq] at hr
                subst hr
                exact le_of_lt hab)
              (fun r hr => hmb'.1 r hr) h1
            refine ⟨?_, ?_, ?_⟩
            · refine List.chain'_cons'.2 ⟨?_, hmo'⟩
              intro r hr
              show toQ (emin p.x q.x) ≤ toQ r.x
              rw [hmin]
              exact hlo' r (List.mem_of_mem_head? hr)
            · intro r hr
              rcases List.mem_cons.1 hr with hr | hr
              · rw [hr]
                show z ≤ toQ (emin p.x q.x)
                rw [hmin]
                exact hzb q rfl
              · exact le_trans (hzb q rfl) (hlo' r hr)
            · simp only [finXC, List.all_cons, Bool.and_eq_true]
              exact ⟨by rw [hmin]; rfl, hfx'⟩

theorem sum2_props (a b : List Pt) (hfa : finXC a = true) (hfb : finXC b = true)
    (hma : MonoC a) (hmb : MonoC b) :
    MonoC (sum2 a b) ∧ finXC (sum2 a b) = true := by
  obtain ⟨out, h1, _⟩ := sum2Aux_total (a.length + b.length) (initE a) (initE b) a b
    hfa hfb le_rfl
  have hza : ∀ p ∈ a.head?,
      min (toQ ((a.headD ptNaN).x)) (toQ ((b.headD ptNaN).x)) ≤ toQ p.x := by
    intro p hp
    have hph : a.headD ptNaN = p := by
      cases a with
      | nil => simp at hp
      | cons u us => simpa using hp
    rw [← hph]
    exact min_le_left _ _
  have hzb : ∀ p ∈ b.head?,
      min (toQ ((a.headD ptNaN).x)) (toQ ((b.headD ptNaN).x)) ≤ toQ p.x := by
    intro p hp
    have hph : b.headD ptNaN = p := by
      cases b with
      | nil => simp at hp
      | cons u us => simpa using hp
    rw [← hph]
    exact min_le_right _ _
  obtain ⟨hmo, _, hfx⟩ := sum2Aux_mono (a.length + b.length) (initE a) (initE b) a b out
    (min (toQ ((a.headD ptNaN).x)) (toQ ((b.headD ptNaN).x)))
    hfa hfb hma hmb hza hzb h1
  rw [sum2, h1]
  exact ⟨hmo, hfx⟩

theorem getD_mem_or {α : Type} (l : List α) (i : Nat) (d : α) :
    l.getD i d ∈ l ∨ l.getD i d = d := by
  by_cases h : i < l.length
  · left
    rw [List.getD_eq_getElem l d h]
    exact List.getElem_mem h
  · right
    exact List.getD_eq_default l d (le_of_not_lt h)

theorem roundMap_inv (cur : List (List Pt)) (g : Nat)
    (hinv : ∀ d ∈ cur, finXC d = true ∧ MonoC d) :
    ∀ d ∈ roundMap cur g, finXC d = true ∧ MonoC d := by
  intro d hd
  rw [roundMap] at hd
  obtain ⟨i, _, rfl⟩ := List.mem_map.1 hd
  have hslot : ∀ j : Nat, finXC (cur.getD j []) = true ∧ MonoC (cur.getD j []) := by
    intro j
    rcases getD_mem_or cur j ([] : List Pt) with h | h
    · exact hinv _ h
    · rw [h]
      exact ⟨rfl, List.chain'_nil⟩
  by_cases hig : i < g
  · rw [if_pos hig]
    obtain ⟨hf1, hm1⟩ := hslot i
    obtain ⟨hf2, hm2⟩ := hslot (i + g)
    have hs := sum2_props _ _ hf1 hf2 hm1 hm2
    exact ⟨hs.2, hs.1⟩
  · rw [if_neg hig]
    exact hslot i

theorem sumLoop_inv : ∀ (f gap : Nat) (cur : List (List Pt)),
    (∀ d ∈ cur, finXC d = true ∧ MonoC d) →
    ∀ d ∈ sumLoop f gap cur, finXC d = true ∧ MonoC d := by
  intro f
  induction f with
  | zero =>
    intro gap cur hinv d hd
    rw [sumLoop] at hd
    exact hinv d hd
  | succ f ih =>
    intro gap cur hinv d hd
    rw [sumLoop] at hd
    split at hd
    · exact hinv d hd
    · exact ih _ _ (roundMap_inv _ _ hinv) d hd

theorem sum_mono (ds : List (List Pt))
    (hinv : ∀ d ∈ ds, finXC d = true ∧ MonoC d) : MonoC (sum ds) := by
  rw [sum]
  have hall := sumLoop_inv ds.length ds.length ds hinv
  cases hres : sumLoop ds.length ds.length ds with
  | nil =>
    exact List.chain'_nil
  | cons d rest =>
    have hdm : d ∈ sumLoop ds.length ds.length ds := by
      rw [hres]
      exact List.mem_cons_self _ _
    exact (hall d hdm).2

/-! ## Boundary-interpolation lemmas for `truncate` (claim C8) -/

theorem interpolate_fin (a b : Pt) (z : ℚ)
    (hax : isFiniteE a.x = true) (hay : isFiniteE a.y = true)
    (hbx : isFiniteE b.x = true) (hby : isFiniteE b.y = true)
    (hne : toQ a.x ≠ toQ b.x) :
    interpolate a b (.fin z)
      = ⟨.fin z, .fin (lerpQ (toQ a.x) (toQ a.y) (toQ b.x) (toQ b.y) z), []⟩ := by
  have hd : toQ b.x - toQ a.x ≠ 0 := sub_ne_zero.2 (Ne.symm hne)
  simp only [interpolate]
  rw [fin_of_isFiniteE hax, fin_of_isFiniteE hay, fin_of_isFiniteE hbx, fin_of_isFiniteE hby]
  rw [esub_fin, esub_fin, eeq_fin]
  rw [if_neg (by simpa using hd)]
  rw [if_pos (show isFiniteE (ENum.fin (toQ a.x)) = true from rfl)]
  rw [esub_fin, ediv_fin _ _ hd, emul_fin, eadd_fin]
  rfl

theorem evalP_bracket : ∀ (A : List (ℚ × ℚ)) (u v : ℚ × ℚ) (B : List (ℚ × ℚ)) (z : ℚ),
    (∀ s ∈ A, s.1 < z) → u.1 < z → z < v.1 →
    evalP (A ++ u :: v :: B) z = lerpQ u.1 u.2 v.1 v.2 z := by
  intro A
  induction A with
  | nil =>
    intro u v B z _ hu hv
    rw [List.nil_append, evalP_cons2, if_neg (not_le.2 hu), if_pos hv]
    rfl
  | cons a A ih =>
    intro u v B z hA hu hv
    have ha : a.1 < z := hA a (List.mem_cons_self _ _)
    have hA' : ∀ s ∈ A, s.1 < z := fun s hs => hA s (List.mem_cons_of_mem _ hs)
    cases A with
    | nil =>
      rw [List.cons_append, List.nil_append, evalP_cons2,
        if_neg (not_le.2 ha), if_neg (not_lt.2 (le_of_lt hu))]
      have hb := ih u v B z (fun s hs => absurd hs (List.not_mem_nil s)) hu hv
      rwa [List.nil_append] at hb
    | cons a2 A2 =>
      rw [List.cons_append, List.cons_append, evalP_cons2,
        if_neg (not_le.2 ha),
        if_neg (not_lt.2 (le_of_lt (hA' a2 (List.mem_cons_self _ _))))]
      have hb := ih u v B z hA' hu hv
      rwa [List.cons_append] at hb

theorem map_nil_iff {α β : Type} (f : α → β) (l : List α) : l.map f = [] ↔ l = [] := by
  cases l <;> simp

theorem pair_dropLast_le_last (L : List (ℚ × ℚ)) (d : ℚ × ℚ)
    (hP : List.Pairwise (fun u v : ℚ × ℚ => u.1 ≤ v.1) L) (h : L ≠ []) :
    ∀ s ∈ L.dropLast, s.1 ≤ (L.getLastD d).1 := by
  intro s hs
  have hL := dropLast_append_getLastD L d h
  rw [← hL] at hP
  exact (List.pairwise_append.1 hP).2.2 s hs (L.getLastD d) (List.mem_singleton_self _)

theorem pairsQ_filter_mid2 (c : List Pt) (mn mx : ℚ) (hf : finC c = true) :
    pairsQ (c.filter fun p => !elt p.x (.fin mn) && !elt (.fin mx) p.x)
      = (pairsQ c).filter (fun u => !decide (u.1 < mn) && !decide (mx < u.1)) := by
  refine pairsQ_filter c _ _ ?_
  intro p hp
  rw [fin_of_isFiniteE (finC_mem hf hp).1]
  rfl

theorem pairsQ_filter_pos2 (c : List Pt) (mn mx : ℚ) (hf : finC c = true) :
    pairsQ (c.filter fun p => !elt p.x (.fin mn) && elt (.fin mx) p.x)
      = (pairsQ c).filter (fun u => !decide (u.1 < mn) && decide (mx < u.1)) := by
  refine pairsQ_filter c _ _ ?_
  intro p hp
  rw [fin_of_isFiniteE (finC_mem hf hp).1]
  rfl

theorem orElse_head_map {α β : Type} (f : α → β) (l1 l2 : List α) :
    ((l1.map f).head?.orElse fun _ => (l2.map f).head?) = ((l1 ++ l2).map f).head? := by
  cases l1 <;> simp [Option.orElse]

theorem tMid1_cases (neg mid0 pos : List Pt) (mn : ENum) :
    (tMid1 neg mid0 pos mn = mid0 ∧
      (neg = [] ∨ (mid0.head?.orElse fun _ => pos.head?) = none ∨
        ∃ rhs, (mid0.head?.orElse fun _ => pos.head?) = some rhs ∧
          elt mn rhs.x = false)) ∨
    (∃ rhs, neg ≠ [] ∧ (mid0.head?.orElse fun _ => pos.head?) = some rhs ∧
      elt mn rhs.x = true ∧
      tMid1 neg mid0 pos mn = interpolate (neg.getLastD ptNaN) rhs mn :: mid0) := by
  rw [tMid1]
  split
  · rename_i hne
    split
    · rename_i rhs heq
      split
      · rename_i hg
        exact Or.inr ⟨rhs, hne, heq, hg, rfl⟩
      · rename_i hg
        exact Or.inl ⟨rfl, Or.inr (Or.inr ⟨rhs, heq, Bool.eq_false_iff.2 hg⟩)⟩
    · rename_i heq
      exact Or.inl ⟨rfl, Or.inr (Or.inl heq)⟩
  · rename_i hne
    exact Or.inl ⟨rfl, Or.inl (not_not.1 hne)⟩

theorem tMid2_cases (neg mid1 pos : List Pt) (mx : ENum) :
    tMid2 neg mid1 pos mx = mid1 ∨
    (∃ lhs, pos ≠ [] ∧ (mid1.getLast?.orElse fun _ => neg.getLast?) = some lhs ∧
      elt lhs.x mx = true ∧
      tMid2 neg mid1 pos mx = mid1 ++ [interpolate lhs (pos.headD ptNaN) mx]) := by
  rw [tMid2]
  split
  · rename_i hpos
    split
    · rename_i lhs heq
      split
      · rename_i hg
        exact Or.inr ⟨lhs, hpos, heq, hg, rfl⟩
      · exact Or.inl rfl
    · exact Or.inl rfl
  · exact Or.inl rfl

theorem tMid1_getLast (neg mid0 pos : List Pt) (mn : ENum) (h0 : mid0 ≠ []) :
    (tMid1 neg mid0 pos mn).getLast? = mid0.getLast? := by
  rcases tMid1_cases neg mid0 pos mn with ⟨he, _⟩ | ⟨rhs, _, _, _, he⟩
  · rw [he]
  · rw [he]
    cases mid0 with
    | nil => exact absurd rfl h0
    | cons m ms => exact List.getLast?_cons_cons

theorem trunc_left_boundary (c : List Pt) (mn mx : ℚ)
    (hf : finC c = true) (hm : MonoC c) (rhs : Pt)
    (hneg : tNeg c (.fin mn) ≠ [])
    (hrhs : ((tMid0 c (.fin mn) (.fin mx)).head?.orElse
        fun _ => (tPos c (.fin mn) (.fin mx)).head?) = some rhs)
    (hguard : elt (.fin mn) rhs.x = true) :
    interpolate ((tNeg c (.fin mn)).getLastD ptNaN) rhs (.fin mn)
      = ⟨.fin mn, .fin (evalP (pairsQ c) mn), []⟩ := by
  have hfneg : fNeg c (.fin mn) ≠ [] := by
    intro h0
    apply hneg
    rw [tNeg]
    rw [show (c.filter fun p => elt p.x (.fin mn)) = fNeg c (.fin mn) from rfl, h0]
    rfl
  have hucm : (fNeg c (.fin mn)).getLastD ptNaN ∈ fNeg c (.fin mn) :=
    getLastD_mem _ _ hfneg
  have hucc : (fNeg c (.fin mn)).getLastD ptNaN ∈ c := List.mem_of_mem_filter hucm
  have hucx := (finC_mem hf hucc).1
  have hucy := (finC_mem hf hucc).2
  have hucm' : (fNeg c (.fin mn)).getLastD ptNaN
      ∈ c.filter fun p => elt p.x (.fin mn) := hucm
  have hprU : elt ((fNeg c (.fin mn)).getLastD ptNaN).x (.fin mn) = true :=
    (List.mem_filter.1 hucm').2
  have huclt : toQ ((fNeg c (.fin mn)).getLastD ptNaN).x < mn :=
    elt_true_lt hucx (rfl : isFiniteE (ENum.fin mn) = true) hprU
  have hu : (tNeg c (.fin mn)).getLastD ptNaN
      = stripF ((fNeg c (.fin mn)).getLastD ptNaN) :=
    map_getLastD stripF _ ptNaN ptNaN hfneg
  have hrhs' : (((fMid c (.fin mn) (.fin mx) ++ fPos c (.fin mn) (.fin mx))).map
      stripF).head? = some rhs := by
    rw [← orElse_head_map]
    exact hrhs
  cases hcat : fMid c (.fin mn) (.fin mx) ++ fPos c (.fin mn) (.fin mx) with
  | nil =>
    rw [hcat] at hrhs'
    simp at hrhs'
  | cons h0 t0 =>
    rw [hcat] at hrhs'
    simp only [List.map_cons, List.head?_cons, Option.some.injEq] at hrhs'
    have hh0c : h0 ∈ c := by
      have hmem : h0 ∈ fMid c (.fin mn) (.fin mx) ++ fPos c (.fin mn) (.fin mx) := by
        rw [hcat]
        exact List.mem_cons_self _ _
      rcases List.mem_append.1 hmem with h | h
      · exact List.mem_of_mem_filter h
      · exact List.mem_of_mem_filter h
    have hh0x := (finC_mem hf hh0c).1
    have hh0y := (finC_mem hf hh0c).2
    have hg2 : elt (.fin mn) h0.x = true := by
      rw [← hrhs'] at hguard
      exact hguard
    have hv : mn < toQ h0.x :=
      elt_true_lt (rfl : isFiniteE (ENum.fin mn) = true) hh0x hg2
    have hpw := pairsQ_pairwise hm
    have hpart := sorted_part2 (pairsQ c) (fun u => decide (u.1 < mn)) hpw
      (fun u v huv hv' => decide_eq_true (lt_of_le_of_lt huv (of_decide_eq_true hv')))
    have hPneg : pairsQ (fNeg c (.fin mn))
        = (pairsQ c).filter (fun u => decide (u.1 < mn)) := pairsQ_filter_lt c mn hf
    have hpwR : List.Pairwise (fun u v : ℚ × ℚ => u.1 ≤ v.1)
        ((pairsQ c).filter (fun u => !decide (u.1 < mn))) := hpw.filter _
    have hpartR := sorted_part2 ((pairsQ c).filter (fun u => !decide (u.1 < mn)))
      (fun u => !decide (mx < u.1)) hpwR
      (fun u v huv hv' => by
        simp only [Bool.not_eq_true', decide_eq_false_iff_not, not_lt] at hv' ⊢
        exact le_trans huv hv')
    have hR1 : ((pairsQ c).filter (fun u => !decide (u.1 < mn))).filter
        (fun u => !decide (mx < u.1))
        = (pairsQ c).filter (fun u => !decide (u.1 < mn) && !decide (mx < u.1)) := by
      rw [List.filter_filter]
      refine List.filter_congr ?_
      intro u _
      exact Bool.and_comm _ _
    have hR2 : ((pairsQ c).filter (fun u => !decide (u.1 < mn))).filter
        (fun u => !(!decide (mx < u.1)))
        = (pairsQ c).filter (fun u => !decide (u.1 < mn) && decide (mx < u.1)) := by
      rw [List.filter_filter]
      refine List.filter_congr ?_
      intro u _
      by_cases h1 : mx < u.1 <;> by_cases h2 : u.1 < mn <;> simp [h1, h2]
    have hPmid : pairsQ (fMid c (.fin mn) (.fin mx))
        = (pairsQ c).filter (fun u => !decide (u.1 < mn) && !decide (mx < u.1)) :=
      pairsQ_filter_mid2 c mn mx hf
    have hPpos : pairsQ (fPos c (.fin mn) (.fin mx))
        = (pairsQ c).filter (fun u => !decide (u.1 < mn) && decide (mx < u.1)) :=
      pairsQ_filter_pos2 c mn mx hf
    have hRcat : (pairsQ c).filter (fun u => !decide (u.1 < mn))
        = pairsQ (fMid c (.fin mn) (.fin mx) ++ fPos c (.fin mn) (.fin mx)) := by
      rw [pairsQ_append, hPmid, hPpos, ← hR1, ← hR2]
      exact hpartR
    have hFne : (pairsQ c).filter (fun u => decide (u.1 < mn)) ≠ [] := by
      rw [← hPneg]
      intro h0'
      rw [pairsQ] at h0'
      exact hfneg ((map_nil_iff _ _).1 h0')
    have hulast : ((pairsQ c).filter fun u => decide (u.1 < mn)).getLastD (0, 0)
        = (toQ ((fNeg c (.fin mn)).getLastD ptNaN).x,
           toQ ((fNeg c (.fin mn)).getLastD ptNaN).y) := by
      rw [← hPneg, pairsQ, map_getLastD _ _ _ ptNaN hfneg]
    have hhead : pairsQ (fMid c (.fin mn) (.fin mx) ++ fPos c (.fin mn) (.fin mx))
        = (toQ h0.x, toQ h0.y) :: pairsQ t0 := by
      rw [hcat, pairsQ]
      rfl
    have hdecomp : pairsQ c
        = ((pairsQ c).filter fun u => decide (u.1 < mn)).dropLast
          ++ (toQ ((fNeg c (.fin mn)).getLastD ptNaN).x,
              toQ ((fNeg c (.fin mn)).getLastD ptNaN).y)
            :: (toQ h0.x, toQ h0.y) :: pairsQ t0 := by
      conv_lhs => rw [hpart]
      rw [hRcat, hhead]
      conv_lhs =>
        rw [← dropLast_append_getLastD
          ((pairsQ c).filter fun u => decide (u.1 < mn)) (0, 0) hFne]
      rw [hulast, List.append_assoc, List.singleton_append]
    have heval : evalP (pairsQ c) mn
        = lerpQ (toQ ((fNeg c (.fin mn)).getLastD ptNaN).x)
            (toQ ((fNeg c (.fin mn)).getLastD ptNaN).y)
            (toQ h0.x) (toQ h0.y) mn := by
      rw [hdecomp]
      refine evalP_bracket _ _ _ _ mn ?_ huclt hv
      intro s hs
      have hsF : s ∈ (pairsQ c).filter (fun u => decide (u.1 < mn)) :=
        (List.dropLast_sublist _).subset hs
      exact of_decide_eq_true (List.mem_filter.1 hsF).2
    rw [hu, ← hrhs', heval]
    exact interpolate_fin (stripF ((fNeg c (.fin mn)).getLastD ptNaN)) (stripF h0) mn
      hucx hucy hh0x hh0y (ne_of_lt (lt_trans huclt hv))

theorem getLast?_eq_some_getLastD {α : Type} (l : List α) (d : α) (h : l ≠ []) :
    l.getLast? = some (l.getLastD d) := by
  conv_lhs => rw [← dropLast_append_getLastD l d h]
  rw [List.getLast?_concat]

theorem head?_eq_some_headD {α : Type} (l : List α) (d : α) (h : l ≠ []) :
    l.head? = some (l.headD d) := by
  cases l with
  | nil => exact absurd rfl h
  | cons a t => rfl

set_option maxHeartbeats 1000000 in
theorem trunc_right_boundary (c : List Pt) (mn mx : ℚ)
    (hf : finC c = true) (hm : MonoC c) (hmm : mn ≤ mx) (lhs : Pt)
    (hpos : tPos c (.fin mn) (.fin mx) ≠ [])
    (hlhs : ((tMid1 (tNeg c (.fin mn)) (tMid0 c (.fin mn) (.fin mx))
        (tPos c (.fin mn) (.fin mx)) (.fin mn)).getLast?.orElse
        fun _ => (tNeg c (.fin mn)).getLast?) = some lhs)
    (hguard : elt lhs.x (.fin mx) = true) :
    interpolate lhs ((tPos c (.fin mn) (.fin mx)).headD ptNaN) (.fin mx)
      = ⟨.fin mx, .fin (evalP (pairsQ c) mx), []⟩ := by
  have hfpos : fPos c (.fin mn) (.fin mx) ≠ [] := by
    intro h0
    apply hpos
    rw [tPos]
    rw [show (c.filter fun p => !elt p.x (.fin mn) && elt (.fin mx) p.x)
      = fPos c (.fin mn) (.fin mx) from rfl, h0]
    rfl
  have hwcm : (fPos c (.fin mn) (.fin mx)).headD ptNaN ∈ fPos c (.fin mn) (.fin mx) :=
    headD_mem _ _ hfpos
  have hwcm' : (fPos c (.fin mn) (.fin mx)).headD ptNaN
      ∈ c.filter fun p => !elt p.x (.fin mn) && elt (.fin mx) p.x := hwcm
  have hwcc : (fPos c (.fin mn) (.fin mx)).headD ptNaN ∈ c := List.mem_of_mem_filter hwcm'
  have hwcx := (finC_mem hf hwcc).1
  have hwcy := (finC_mem hf hwcc).2
  have hprW : (!elt ((fPos c (.fin mn) (.fin mx)).headD ptNaN).x (.fin mn)
      && elt (.fin mx) ((fPos c (.fin mn) (.fin mx)).headD ptNaN).x) = true :=
    (List.mem_filter.1 hwcm').2
  have hprW2 : elt (.fin mx) ((fPos c (.fin mn) (.fin mx)).headD ptNaN).x = true := by
    simp only [Bool.and_eq_true] at hprW
    exact hprW.2
  have hwgt : mx < toQ ((fPos c (.fin mn) (.fin mx)).headD ptNaN).x :=
    elt_true_lt (rfl : isFiniteE (ENum.fin mx) = true) hwcx hprW2
  have hw : (tPos c (.fin mn) (.fin mx)).headD ptNaN
      = stripF ((fPos c (.fin mn) (.fin mx)).headD ptNaN) :=
    map_headD stripF _ ptNaN ptNaN hfpos
  have hwhd : (tPos c (.fin mn) (.fin mx)).head?
      = some (stripF ((fPos c (.fin mn) (.fin mx)).headD ptNaN)) := by
    rw [head?_eq_some_headD (tPos c (.fin mn) (.fin mx)) ptNaN hpos, hw]
  -- pair-level partition machinery
  have hpw := pairsQ_pairwise hm
  have hpart := sorted_part2 (pairsQ c) (fun u => decide (u.1 < mn)) hpw
    (fun u v huv hv' => decide_eq_true (lt_of_le_of_lt huv (of_decide_eq_true hv')))
  have hPneg : pairsQ (fNeg c (.fin mn))
      = (pairsQ c).filter (fun u => decide (u.1 < mn)) := pairsQ_filter_lt c mn hf
  have hpwR : List.Pairwise (fun u v : ℚ × ℚ => u.1 ≤ v.1)
      ((pairsQ c).filter (fun u => !decide (u.1 < mn))) := hpw.filter _
  have hpartR := sorted_part2 ((pairsQ c).filter (fun u => !decide (u.1 < mn)))
    (fun u => !decide (mx < u.1)) hpwR
    (fun u v huv hv' => by
      simp only [Bool.not_eq_true', decide_eq_false_iff_not, not_lt] at hv' ⊢
      exact le_trans huv hv')
  have hR1 : ((pairsQ c).filter (fun u => !decide (u.1 < mn))).filter
      (fun u => !decide (mx < u.1))
      = (pairsQ c).filter (fun u => !decide (u.1 < mn) && !decide (mx < u.1)) := by
    rw [List.filter_filter]
    refine List.filter_congr ?_
    intro u _
    exact Bool.and_comm _ _
  have hR2 : ((pairsQ c).filter (fun u => !decide (u.1 < mn))).filter
      (fun u => !(!decide (mx < u.1)))
      = (pairsQ c).filter (fun u => !decide (u.1 < mn) && decide (mx < u.1)) := by
    rw [List.filter_filter]
    refine List.filter_congr ?_
    intro u _
    by_cases h1 : mx < u.1 <;> by_cases h2 : u.1 < mn <;> simp [h1, h2]
  have hPmid : pairsQ (fMid c (.fin mn) (.fin mx))
      = (pairsQ c).filter (fun u => !decide (u.1 < mn) && !decide (mx < u.1)) :=
    pairsQ_filter_mid2 c mn mx hf
  have hPpos : pairsQ (fPos c (.fin mn) (.fin mx))
      = (pairsQ c).filter (fun u => !decide (u.1 < mn) && decide (mx < u.1)) :=
    pairsQ_filter_pos2 c mn mx hf
  have hRsplit : (pairsQ c).filter (fun u => !decide (u.1 < mn))
      = pairsQ (fMid c (.fin mn) (.fin mx)) ++ pairsQ (fPos c (.fin mn) (.fin mx)) := by
    rw [hPmid, hPpos, ← hR1, ← hR2]
    exact hpartR
  have hdecompR : pairsQ c = ((pairsQ c).filter fun u => decide (u.1 < mn))
      ++ (pairsQ (fMid c (.fin mn) (.fin mx)) ++ pairsQ (fPos c (.fin mn) (.fin mx))) := by
    conv_lhs => rw [hpart]
    rw [hRsplit]
  have hWps : pairsQ (fPos c (.fin mn) (.fin mx))
      = (toQ ((fPos c (.fin mn) (.fin mx)).headD ptNaN).x,
         toQ ((fPos c (.fin mn) (.fin mx)).headD ptNaN).y)
        :: pairsQ ((fPos c (.fin mn) (.fin mx)).tail) := by
    conv_lhs => rw [← headD_cons_tail (fPos c (.fin mn) (.fin mx)) ptNaN hfpos]
    rfl
  by_cases hfm : fMid c (.fin mn) (.fin mx) = []
  · -- no interior points: the left boundary (if any) was itself synthesized
    have hM0 : tMid0 c (.fin mn) (.fin mx) = [] := by
      rw [tMid0]
      rw [show (c.filter fun p => !elt p.x (.fin mn) && !elt (.fin mx) p.x)
        = fMid c (.fin mn) (.fin mx) from rfl, hfm]
      rfl
    have hMnil : pairsQ (fMid c (.fin mn) (.fin mx)) = [] := by
      rw [hfm]
      rfl
    rcases tMid1_cases (tNeg c (.fin mn)) (tMid0 c (.fin mn) (.fin mx))
        (tPos c (.fin mn) (.fin mx)) (.fin mn) with ⟨hm1eq, hwhy⟩ | ⟨rhs, hne, hrhs', hg', hm1eq⟩
    · -- no left synthesis: impossible given pos ≠ [] and mn ≤ mx
      exfalso
      rcases hwhy with hnegnil | hnone | ⟨rhs, hsome, hgf⟩
      · -- neg = [] : then the orElse in hlhs has no value
        rw [hm1eq, hM0] at hlhs
        simp only [List.getLast?_nil, Option.orElse] at hlhs
        rw [hnegnil] at hlhs
        simp at hlhs
      · rw [hM0] at hnone
        simp only [List.head?_nil, Option.orElse] at hnone
        rw [hwhd] at hnone
        simp at hnone
      · rw [hM0] at hsome
        simp only [List.head?_nil, Option.orElse] at hsome
        rw [hwhd] at hsome
        simp only [Option.some.injEq] at hsome
        rw [← hsome] at hgf
        have hle : toQ ((fPos c (.fin mn) (.fin mx)).headD ptNaN).x ≤ mn :=
          elt_false_le (rfl : isFiniteE (ENum.fin mn) = true) hwcx hgf
        exact absurd (lt_of_le_of_lt (le_trans hle hmm) hwgt) (lt_irrefl _)
    · -- left synthesis happened: tMid1 = [ipt1]
      rw [hM0] at hrhs'
      simp only [List.head?_nil, Option.orElse] at hrhs'
      rw [hwhd] at hrhs'
      simp only [Option.some.injEq] at hrhs'
      -- the left bracket point
      have hfneg : fNeg c (.fin mn) ≠ [] := by
        intro h0
        apply hne
        rw [tNeg]
        rw [show (c.filter fun p => elt p.x (.fin mn)) = fNeg c (.fin mn) from rfl, h0]
        rfl
      have hucm : (fNeg c (.fin mn)).getLastD ptNaN ∈ fNeg c (.fin mn) :=
        getLastD_mem _ _ hfneg
      have hucm' : (fNeg c (.fin mn)).getLastD ptNaN
          ∈ c.filter fun p => elt p.x (.fin mn) := hucm
      have hucc : (fNeg c (.fin mn)).getLastD ptNaN ∈ c := List.mem_of_mem_filter hucm'
      have hucx := (finC_mem hf hucc).1
      have hucy := (finC_mem hf hucc).2
      have hprU : elt ((fNeg c (.fin mn)).getLastD ptNaN).x (.fin mn) = true :=
        (List.mem_filter.1 hucm').2
      have huclt : toQ ((fNeg c (.fin mn)).getLastD ptNaN).x < mn :=
        elt_true_lt hucx (rfl : isFiniteE (ENum.fin mn) = true) hprU
      have hu : (tNeg c (.fin mn)).getLastD ptNaN
          = stripF ((fNeg c (.fin mn)).getLastD ptNaN) :=
        map_getLastD stripF _ ptNaN ptNaN hfneg
      have hne2 : toQ ((fNeg c (.fin mn)).getLastD ptNaN).x
          ≠ toQ ((fPos c (.fin mn) (.fin mx)).headD ptNaN).x :=
        ne_of_lt (lt_trans huclt (lt_of_le_of_lt hmm hwgt))
      -- compute the synthesized left point
      have hipt : interpolate ((tNeg c (.fin mn)).getLastD ptNaN) rhs (.fin mn)
          = ⟨.fin mn, .fin (lerpQ (toQ ((fNeg c (.fin mn)).getLastD ptNaN).x)
              (toQ ((fNeg c (.fin mn)).getLastD ptNaN).y)
              (toQ ((fPos c (.fin mn) (.fin mx)).headD ptNaN).x)
              (toQ ((fPos c (.fin mn) (.fin mx)).headD ptNaN).y) mn), []⟩ := by
        rw [hu, ← hrhs']
        exact interpolate_fin _ _ mn hucx hucy hwcx hwcy hne2
      -- identify lhs with the synthesized point
      rw [hm1eq, hM0, hipt] at hlhs
      simp only [List.getLast?_cons, List.getLast?_nil, Option.orElse] at hlhs
      have hlhs2 : lhs = ⟨.fin mn, .fin (lerpQ (toQ ((fNeg c (.fin mn)).getLastD ptNaN).x)
          (toQ ((fNeg c (.fin mn)).getLastD ptNaN).y)
          (toQ ((fPos c (.fin mn) (.fin mx)).headD ptNaN).x)
          (toQ ((fPos c (.fin mn) (.fin mx)).headD ptNaN).y) mn), []⟩ := by
        simpa using hlhs.symm
      have hmnmx : mn < mx := by
        rw [hlhs2] at hguard
        exact elt_true_lt (rfl : isFiniteE (ENum.fin mn) = true)
          (rfl : isFiniteE (ENum.fin mx) = true) hguard
      -- evaluate the curve at mx
      have heval : evalP (pairsQ c) mx
          = lerpQ (toQ ((fNeg c (.fin mn)).getLastD ptNaN).x)
              (toQ ((fNeg c (.fin mn)).getLastD ptNaN).y)
              (toQ ((fPos c (.fin mn) (.fin mx)).headD ptNaN).x)
              (toQ ((fPos c (.fin mn) (.fin mx)).headD ptNaN).y) mx := by
        have hFne : (pairsQ c).filter (fun u => decide (u.1 < mn)) ≠ [] := by
          rw [← hPneg]
          intro h0'
          rw [pairsQ] at h0'
          exact hfneg ((map_nil_iff _ _).1 h0')
        have hulast : ((pairsQ c).filter fun u => decide (u.1 < mn)).getLastD (0, 0)
            = (toQ ((fNeg c (.fin mn)).getLastD ptNaN).x,
               toQ ((fNeg c (.fin mn)).getLastD ptNaN).y) := by
          rw [← hPneg, pairsQ, map_getLastD _ _ _ ptNaN hfneg]
        have hdec : pairsQ c
            = ((pairsQ c).filter fun u => decide (u.1 < mn)).dropLast
              ++ (toQ ((fNeg c (.fin mn)).getLastD ptNaN).x,
                  toQ ((fNeg c (.fin mn)).getLastD ptNaN).y)
                :: (toQ ((fPos c (.fin mn) (.fin mx)).headD ptNaN).x,
                    toQ ((fPos c (.fin mn) (.fin mx)).headD ptNaN).y)
                :: pairsQ ((fPos c (.fin mn) (.fin mx)).tail) := by
          conv_lhs => rw [hdecompR]
          rw [hMnil, List.nil_append, hWps]
          conv_lhs =>
            rw [← dropLast_append_getLastD
              ((pairsQ c).filter fun u => decide (u.1 < mn)) (0, 0) hFne]
          rw [hulast, List.append_assoc, List.singleton_append]
        rw [hdec]
        refine evalP_bracket _ _ _ _ mx ?_ (lt_of_lt_of_le huclt hmm) hwgt
        intro s hs
        have hsF : s ∈ (pairsQ c).filter (fun u => decide (u.1 < mn)) :=
          (List.dropLast_sublist _).subset hs
        exact lt_of_lt_of_le (of_decide_eq_true (List.mem_filter.1 hsF).2) hmm
      -- final computation via the collinear re-interpolation
      have hiptfin := interpolate_fin
        (⟨ENum.fin mn, ENum.fin (lerpQ (toQ ((fNeg c (.fin mn)).getLastD ptNaN).x)
            (toQ ((fNeg c (.fin mn)).getLastD ptNaN).y)
            (toQ ((fPos c (.fin mn) (.fin mx)).headD ptNaN).x)
            (toQ ((fPos c (.fin mn) (.fin mx)).headD ptNaN).y) mn), []⟩ : Pt)
        (stripF ((fPos c (.fin mn) (.fin mx)).headD ptNaN)) mx rfl rfl hwcx hwcy
        (ne_of_lt (lt_of_le_of_lt hmm hwgt))
      rw [hlhs2, hw, heval, hiptfin]
      exact congrArg (fun yv => (⟨ENum.fin mx, ENum.fin yv, []⟩ : Pt))
        (lerpQ_chain _ _ _ _ _ _ hne2 (ne_of_lt (lt_of_le_of_lt hmm hwgt)))
  · -- interior points exist: the left neighbour of the right boundary is real
    have hM0ne : tMid0 c (.fin mn) (.fin mx) ≠ [] := by
      intro h0
      apply hfm
      rw [tMid0] at h0
      exact (map_nil_iff _ _).1 h0
    have hmcm : (fMid c (.fin mn) (.fin mx)).getLastD ptNaN ∈ fMid c (.fin mn) (.fin mx) :=
      getLastD_mem _ _ hfm
    have hmcm' : (fMid c (.fin mn) (.fin mx)).getLastD ptNaN
        ∈ c.filter fun p => !elt p.x (.fin mn) && !elt (.fin mx) p.x := hmcm
    have hmcc : (fMid c (.fin mn) (.fin mx)).getLastD ptNaN ∈ c :=
      List.mem_of_mem_filter hmcm'
    have hmcx := (finC_mem hf hmcc).1
    have hmcy := (finC_mem hf hmcc).2
    have hMlast : (tMid0 c (.fin mn) (.fin mx)).getLast?
        = some (stripF ((fMid c (.fin mn) (.fin mx)).getLastD ptNaN)) := by
      rw [getLast?_eq_some_getLastD (tMid0 c (.fin mn) (.fin mx)) ptNaN hM0ne]
      rw [show (tMid0 c (.fin mn) (.fin mx)).getLastD ptNaN
        = stripF ((fMid c (.fin mn) (.fin mx)).getLastD ptNaN) from
        map_getLastD stripF (fMid c (.fin mn) (.fin mx)) ptNaN ptNaN hfm]
    have hgl := tMid1_getLast (tNeg c (.fin mn)) (tMid0 c (.fin mn) (.fin mx))
      (tPos c (.fin mn) (.fin mx)) (.fin mn) hM0ne
    rw [hgl, hMlast] at hlhs
    simp only [Option.orElse, Option.some.injEq] at hlhs
    have hlmc : lhs = stripF ((fMid c (.fin mn) (.fin mx)).getLastD ptNaN) := hlhs.symm
    have hmclt : toQ ((fMid c (.fin mn) (.fin mx)).getLastD ptNaN).x < mx := by
      rw [hlmc] at hguard
      exact elt_true_lt hmcx (rfl : isFiniteE (ENum.fin mx) = true) hguard
    have hMne : pairsQ (fMid c (.fin mn) (.fin mx)) ≠ [] := by
      intro h0'
      rw [pairsQ] at h0'
      exact hfm ((map_nil_iff _ _).1 h0')
    have hMlastp : (pairsQ (fMid c (.fin mn) (.fin mx))).getLastD (0, 0)
        = (toQ ((fMid c (.fin mn) (.fin mx)).getLastD ptNaN).x,
           toQ ((fMid c (.fin mn) (.fin mx)).getLastD ptNaN).y) := by
      rw [pairsQ, map_getLastD _ _ _ ptNaN hfm]
    have hpwM : List.Pairwise (fun u v : ℚ × ℚ => u.1 ≤ v.1)
        (pairsQ (fMid c (.fin mn) (.fin mx))) := by
      rw [hPmid]
      exact hpw.filter _
    have hdec : pairsQ c
        = (((pairsQ c).filter fun u => decide (u.1 < mn))
            ++ (pairsQ (fMid c (.fin mn) (.fin mx))).dropLast)
          ++ (toQ ((fMid c (.fin mn) (.fin mx)).getLastD ptNaN).x,
              toQ ((fMid c (.fin mn) (.fin mx)).getLastD ptNaN).y)
            :: (toQ ((fPos c (.fin mn) (.fin mx)).headD ptNaN).x,
                toQ ((fPos c (.fin mn) (.fin mx)).headD ptNaN).y)
            :: pairsQ ((fPos c (.fin mn) (.fin mx)).tail) := by
      conv_lhs => rw [hdecompR]
      rw [hWps]
      conv_lhs =>
        rw [← dropLast_append_getLastD (pairsQ (fMid c (.fin mn) (.fin mx))) (0, 0) hMne]
      rw [hMlastp, List.append_assoc, List.singleton_append, ← List.append_assoc]
    have heval : evalP (pairsQ c) mx
        = lerpQ (toQ ((fMid c (.fin mn) (.fin mx)).getLastD ptNaN).x)
            (toQ ((fMid c (.fin mn) (.fin mx)).getLastD ptNaN).y)
            (toQ ((fPos c (.fin mn) (.fin mx)).headD ptNaN).x)
            (toQ ((fPos c (.fin mn) (.fin mx)).headD ptNaN).y) mx := by
      rw [hdec]
      refine evalP_bracket _ _ _ _ mx ?_ hmclt hwgt
      intro s hs
      rcases List.mem_append.1 hs with h | h
      · exact lt_of_lt_of_le (of_decide_eq_true (List.mem_filter.1 h).2) hmm
      · exact lt_of_le_of_lt
          (by
            have := pair_dropLast_le_last (pairsQ (fMid c (.fin mn) (.fin mx))) (0, 0)
              hpwM hMne s h
            rwa [hMlastp] at this)
          hmclt
    rw [hlmc, hw, heval]
    exact interpolate_fin _ _ mx hmcx hmcy hwcx hwcy
      (ne_of_lt (lt_trans hmclt hwgt))

/-! ## Claim theorems -/

/-- Claim C1: the claim fails on the code.  `sum` applied to five
single-point curves at `X = 0` with values `1, 2, 4, 8, 16` returns the
single breakpoint `(0, 39)`, although the sum of the five curves' values at
every `X` is `31`: the halving fold re-reads the stale slot `current[3]`
and double-counts the fourth curve. -/
theorem c1_sum_double_counts :
    sum c1Curves = [mkPt 0 39] ∧
    (c1Curves.map fun c => evalP (pairsQ c) 0).sum = 31 ∧
    evalP (pairsQ (sum c1Curves)) 0 = 39 := by
  refine ⟨by with_unfolding_all decide, by with_unfolding_all decide, by with_unfolding_all decide⟩

/-- Claim C2: the claim fails on the code.  `reduce` applied to
`[(5,-2),(10,0),(10,0),(10,5)]` drops BOTH duplicated interior points (each
is exactly collinear with its original neighbours, since the test compares
against the original, not the last kept, point) and returns only 2 points,
while the claim — and the repository's own
"Test duplicated point collinearity" test — expects 3. -/
theorem c2_reduce_drops_both_duplicates :
    reduce c2Curve = [mkPt 5 (-2), mkPt 10 5] ∧ (reduce c2Curve).length = 2 := by
  refine ⟨by with_unfolding_all decide, by with_unfolding_all decide⟩

/-- Claim C3: the claim fails on the code for `n = 1`.  `reduce` of a
single-point curve pushes the point twice (once as first, once as last),
returning a length-2 list that is not a subsequence of the input and
violates `length ≤ n`. -/
theorem c3_reduce_singleton_duplicates :
    reduce [mkPt 0 0] = [mkPt 0 0, mkPt 0 0] := by with_unfolding_all decide

/-- Claim C4: the claim fails on the code.  On the weakly monotone curve
`[(0,0),(1,3),(1,3),(2,2),(4,4)]`, the first `reduce` drops the duplicated
pair entirely, after which `(2,2)` becomes exactly collinear with its new
neighbours and a second `reduce` drops it too, so `reduce` is not
idempotent. -/
theorem c4_reduce_not_idempotent :
    MonoC c4Curve ∧
    reduce c4Curve = [mkPt 0 0, mkPt 2 2, mkPt 4 4] ∧
    reduce (reduce c4Curve) = [mkPt 0 0, mkPt 4 4] ∧
    reduce (reduce c4Curve) ≠ reduce c4Curve := by
  refine ⟨?_, by with_unfolding_all decide, by with_unfolding_all decide,
    by with_unfolding_all decide⟩
  simp only [MonoC, c4Curve, List.chain'_cons, List.chain'_singleton, leX, mkPt, toQ,
    and_true]
  norm_num

/-- Claim C6: the claim fails on the code for `sum` of a one-curve list.
`sum([c])` returns `current.at(0)`, which is the original input curve: its
points keep every extra field (here `"z"`), contradicting the claim (and
the declared `OnlyXY` return type). -/
theorem c6_sum_singleton_keeps_extra_fields :
    sum [c6Curve] = c6Curve ∧
    (sum [c6Curve]).any (fun p => !p.extra.isEmpty) = true := by
  refine ⟨by with_unfolding_all decide, by with_unfolding_all decide⟩

/-- Claim C5: the two-point interpolation primitive returns a point at
`X = xAt` whose `Y` is NaN when `b.X - a.X == 0` (tested first), `a.Y` when
the difference is non-zero and `a.X` is the `-∞` sentinel, and the standard
linear-interpolation value when the difference is non-zero and the
coordinates are finite. -/
theorem c5_interpolate_cases (a b : Pt) (xv : ENum) :
    (interpolate a b xv).x = xv ∧
    (esub b.x a.x = .fin 0 → (interpolate a b xv).y = .nan) ∧
    (esub b.x a.x ≠ .fin 0 → a.x = .ninf → (interpolate a b xv).y = a.y) ∧
    (∀ qa qya qb qyb qx : ℚ, esub b.x a.x ≠ .fin 0 → a.x = .fin qa → a.y = .fin qya →
      b.x = .fin qb → b.y = .fin qyb → xv = .fin qx →
      (interpolate a b xv).y = .fin (qya + (qx - qa) / (qb - qa) * (qyb - qya))) := by
  refine ⟨?_, ?_, ?_, ?_⟩
  · simp only [interpolate]
    split
    · rfl
    · split <;> rfl
  · intro h
    have ht : eeq (esub b.x a.x) (ENum.fin 0) = true := (eeq_fin_zero_iff _).2 h
    simp [interpolate, ht]
  · intro h hnin
    have hf : eeq (esub b.x a.x) (ENum.fin 0) = false := eeq_fin_zero_false h
    simp only [interpolate, hf, Bool.false_eq_true, if_false]
    rw [hnin]
    simp [isFiniteE]
  · intro qa qya qb qyb qx h ha hya hb hyb hxv
    have hne : qb - qa ≠ 0 := by
      intro h0
      apply h
      rw [ha, hb]
      simp [esub, h0]
    have hf : eeq (esub b.x a.x) (ENum.fin 0) = false := eeq_fin_zero_false h
    simp only [interpolate, hf, Bool.false_eq_true, if_false]
    rw [ha, hya, hb, hyb, hxv]
    simp [isFiniteE, esub, eadd, emul, ediv, hne]

/-- Claim C5 witness: the NaN branch at a zero-width span, and the finite
interpolation branch at concrete points. -/
theorem c5_interpolate_cases_w :
    (interpolate ⟨.fin 1, .fin 2, []⟩ ⟨.fin 1, .fin 7, []⟩ (.fin 3)).y = .nan ∧
    (interpolate ⟨.fin 0, .fin 0, []⟩ ⟨.fin 2, .fin 4, []⟩ (.fin 1)).y = .fin 2 := by
  constructor
  · exact (c5_interpolate_cases ⟨.fin 1, .fin 2, []⟩ ⟨.fin 1, .fin 7, []⟩ (.fin 3)).2.1 (by with_unfolding_all decide)
  · have h := (c5_interpolate_cases ⟨.fin 0, .fin 0, []⟩ ⟨.fin 2, .fin 4, []⟩
      (.fin 1)).2.2.2 0 0 2 4 1 (by with_unfolding_all decide) rfl rfl rfl rfl rfl
    rw [h]
    norm_num

/-- Claim C7: for a weakly monotone curve with finite coordinates,
translating the two halves of `split` back by `+x0`, concatenating and
dropping one copy of a duplicated boundary point yields a curve whose
piecewise-linear value agrees with the original curve at every `X` in
`[min X, max X]`. -/
theorem c7_split_rejoin (c : List Pt) (x0 X : ℚ)
    (hf : finC c = true) (hm : MonoC c)
    (hlo : ∀ p ∈ c.head?, toQ p.x ≤ X) (hhi : ∀ p ∈ c.getLast?, X ≤ toQ p.x) :
    evalP (pairsQ (rejoinSplit c (.fin x0))) X = evalP (pairsQ c) X := by
  by_cases hmid : (c.filter fun p => !elt p.x (.fin x0) && !elt (.fin x0) p.x) = []
  · exact rejoin_eval_midnil c x0 X hf hm hmid
  · exact rejoin_eval_mid c x0 X hf hm hmid

/-- Claim C7 witness: splitting `[(0,0),(2,2)]` at `x0 = 1` and re-joining
reproduces the curve's value at `X = 1`. -/
theorem c7_split_rejoin_w :
    evalP (pairsQ (rejoinSplit [mkPt 0 0, mkPt 2 2] (.fin 1))) 1
      = evalP (pairsQ [mkPt 0 0, mkPt 2 2]) 1 :=
  c7_split_rejoin [mkPt 0 0, mkPt 2 2] 1 1 (by decide)
    (by
      simp only [MonoC, List.chain'_cons, List.chain'_singleton, leX, mkPt, toQ, and_true]
      norm_num)
    (by
      intro p hp
      simp only [List.head?_cons, Option.mem_def, Option.some.injEq] at hp
      rw [← hp]
      norm_num [mkPt, toQ])
    (by
      intro p hp
      simp only [List.getLast?, Option.mem_def, Option.some.injEq] at hp
      rw [← hp]
      norm_num [mkPt, toQ])

/-- Claim C10: the claim fails on the code as stated.  Merging the
single-point curves `[(0,1)]` and `[(0,2)]` emits a single breakpoint
`(0, 3)` — both cursors advance in the same iteration when their X
coordinates tie — so the merge produces 1 breakpoint, not `|a| + |b| = 2`. -/
theorem c10_merge_tie_counterexample :
    sum2 [mkPt 0 1] [mkPt 0 2] = [mkPt 0 3] ∧
    (sum2 [mkPt 0 1] [mkPt 0 2]).length ≠
      ([mkPt 0 1] : List Pt).length + ([mkPt 0 2] : List Pt).length := by
  refine ⟨by with_unfolding_all decide, by with_unfolding_all decide⟩

/-- Claim C10 (amended): for weakly monotone curves `a` and `b` with finite
coordinates, the two-pointer merge terminates — the fuel-indexed embedding
returns `some` within `|a| + |b|` iterations — and the merged output has at
most `|a| + |b|` breakpoints (the bound is attained only when no X
coordinates coincide). -/
theorem c10_merge_terminates_and_bounded (a b : List Pt)
    (hfa : finC a = true) (hfb : finC b = true)
    (_hma : MonoC a) (_hmb : MonoC b) :
    (sum2Aux (a.length + b.length) (initE a) (initE b) a b).isSome = true ∧
    (sum2 a b).length ≤ a.length + b.length := by
  obtain ⟨out, h1, h2⟩ := sum2Aux_total (a.length + b.length) (initE a) (initE b) a b
    (finXC_of_finC hfa) (finXC_of_finC hfb) le_rfl
  refine ⟨by rw [h1]; rfl, ?_⟩
  rw [sum2, h1]
  exact h2

/-- Claim C10 witness: merging `[(0,1)]` with `[(1,5)]` terminates and yields
at most two breakpoints. -/
theorem c10_merge_terminates_and_bounded_w :
    (sum2Aux (([mkPt 0 1] : List Pt).length + ([mkPt 1 5] : List Pt).length)
        (initE [mkPt 0 1]) (initE [mkPt 1 5]) [mkPt 0 1] [mkPt 1 5]).isSome = true ∧
    (sum2 [mkPt 0 1] [mkPt 1 5]).length ≤
      ([mkPt 0 1] : List Pt).length + ([mkPt 1 5] : List Pt).length :=
  c10_merge_terminates_and_bounded [mkPt 0 1] [mkPt 1 5]
    (by with_unfolding_all decide) (by with_unfolding_all decide)
    (by simp [MonoC]) (by simp [MonoC])

/-- Claim C9: every transforming operation preserves weak monotonicity in X —
for a weakly monotone curve with finite coordinates, `reduce`, `truncate` and
both halves of `split` (in translated coordinates) are weakly monotone, and
`sum` of a list of such curves is weakly monotone. -/
theorem c9_mono_preserved (c : List Pt) (ds : List (List Pt)) (x0 mn mx : ℚ)
    (hf : finC c = true) (hm : MonoC c)
    (hds : ∀ d ∈ ds, finC d = true ∧ MonoC d) :
    MonoC (reduce c) ∧
    MonoC (truncate c (.fin mn) (.fin mx)) ∧
    MonoC ((split c (.fin x0)).1) ∧
    MonoC ((split c (.fin x0)).2) ∧
    MonoC (sum ds) :=
  ⟨reduce_mono hm, truncate_mono c mn mx hf hm, split_mono_left c x0 hf hm,
   split_mono_right c x0 hf hm,
   sum_mono ds fun d hd => ⟨finXC_of_finC (hds d hd).1, (hds d hd).2⟩⟩

/-- Claim C9 witness: the invariant is preserved on the concrete curve
`[(0,0),(2,2)]` (reduced, truncated to `[0,1]`, split at `1`) and on the sum
of the single curve `[(0,1)]`. -/
theorem c9_mono_preserved_w :
    MonoC (reduce [mkPt 0 0, mkPt 2 2]) ∧
    MonoC (truncate [mkPt 0 0, mkPt 2 2] (.fin 0) (.fin 1)) ∧
    MonoC ((split [mkPt 0 0, mkPt 2 2] (.fin 1)).1) ∧
    MonoC ((split [mkPt 0 0, mkPt 2 2] (.fin 1)).2) ∧
    MonoC (sum [[mkPt 0 1]]) :=
  c9_mono_preserved [mkPt 0 0, mkPt 2 2] [[mkPt 0 1]] 1 0 1
    (by with_unfolding_all decide)
    (by
      simp only [MonoC, List.chain'_cons, List.chain'_singleton, leX, mkPt, toQ, and_true]
      norm_num)
    (by
      intro d hd
      simp only [List.mem_singleton] at hd
      subst hd
      exact ⟨by with_unfolding_all decide, by simp [MonoC]⟩)

/-- Claim C8: for a weakly monotone curve with finite coordinates and
`min ≤ max`, every point of `truncate` lies in `[min, max]` on X, and every
output point is either an input point (restricted to the X/Y fields) or a
synthesized boundary point at `X = min` or `X = max` whose Y is the linear
interpolation of the curve's bracketing input points at that X (the
piecewise-linear value of the curve there). -/
theorem c8_truncate_bounds_boundary (c : List Pt) (mn mx : ℚ)
    (hf : finC c = true) (hm : MonoC c) (hmm : mn ≤ mx) :
    (∀ p ∈ truncate c (.fin mn) (.fin mx), mn ≤ toQ p.x ∧ toQ p.x ≤ mx) ∧
    (∀ p ∈ truncate c (.fin mn) (.fin mx),
      (∃ q ∈ c, p = stripF q) ∨
      ((toQ p.x = mn ∨ toQ p.x = mx) ∧ toQ p.y = evalP (pairsQ c) (toQ p.x))) := by
  have hmain : ∀ p ∈ truncate c (.fin mn) (.fin mx),
      (mn ≤ toQ p.x ∧ toQ p.x ≤ mx) ∧
      ((∃ q ∈ c, p = stripF q) ∨
        ((toQ p.x = mn ∨ toQ p.x = mx) ∧ toQ p.y = evalP (pairsQ c) (toQ p.x))) := by
    have hmid0 : ∀ p' ∈ tMid0 c (.fin mn) (.fin mx),
        (mn ≤ toQ p'.x ∧ toQ p'.x ≤ mx) ∧ (∃ q ∈ c, p' = stripF q) := by
      intro p' hp'
      rw [tMid0] at hp'
      obtain ⟨q, hq, rfl⟩ := List.mem_map.1 hp'
      have hq' : q ∈ c.filter fun pp => !elt pp.x (.fin mn) && !elt (.fin mx) pp.x := hq
      have hqc := List.mem_of_mem_filter hq'
      have hqx := (finC_mem hf hqc).1
      have hpr := (List.mem_filter.1 hq').2
      simp only [Bool.and_eq_true, Bool.not_eq_true'] at hpr
      refine ⟨⟨?_, ?_⟩, ⟨q, hqc, rfl⟩⟩
      · exact elt_false_le hqx (rfl : isFiniteE (ENum.fin mn) = true) hpr.1
      · exact elt_false_le (rfl : isFiniteE (ENum.fin mx) = true) hqx hpr.2
    have hmid1 : ∀ p ∈ tMid1 (tNeg c (.fin mn)) (tMid0 c (.fin mn) (.fin mx))
        (tPos c (.fin mn) (.fin mx)) (.fin mn),
        (mn ≤ toQ p.x ∧ toQ p.x ≤ mx) ∧
        ((∃ q ∈ c, p = stripF q) ∨
          ((toQ p.x = mn ∨ toQ p.x = mx) ∧ toQ p.y = evalP (pairsQ c) (toQ p.x))) := by
      intro p hp
      rcases tMid1_cases (tNeg c (.fin mn)) (tMid0 c (.fin mn) (.fin mx))
          (tPos c (.fin mn) (.fin mx)) (.fin mn) with ⟨h1, _⟩ | ⟨rhs, hne, hrhs, hg1, h1⟩
      · rw [h1] at hp
        exact ⟨(hmid0 p hp).1, Or.inl (hmid0 p hp).2⟩
      · rw [h1] at hp
        rcases List.mem_cons.1 hp with hp1 | hp1
        · have hval := trunc_left_boundary c mn mx hf hm rhs hne hrhs hg1
          rw [hp1, hval]
          exact ⟨⟨le_refl mn, hmm⟩, Or.inr ⟨Or.inl rfl, rfl⟩⟩
        · exact ⟨(hmid0 p hp1).1, Or.inl (hmid0 p hp1).2⟩
    intro p hp
    rw [truncate_eq] at hp
    rcases tMid2_cases (tNeg c (.fin mn))
        (tMid1 (tNeg c (.fin mn)) (tMid0 c (.fin mn) (.fin mx))
          (tPos c (.fin mn) (.fin mx)) (.fin mn))
        (tPos c (.fin mn) (.fin mx)) (.fin mx) with h2 | ⟨lhs, hpos, hlhs, hg2, h2⟩
    · rw [h2] at hp
      exact hmid1 p hp
    · rw [h2] at hp
      rcases List.mem_append.1 hp with hp1 | hp1
      · exact hmid1 p hp1
      · have hp2 : p = interpolate lhs ((tPos c (.fin mn) (.fin mx)).headD ptNaN)
            (.fin mx) := by simpa using hp1
        have hval := trunc_right_boundary c mn mx hf hm hmm lhs hpos hlhs hg2
        rw [hp2, hval]
        exact ⟨⟨hmm, le_refl mx⟩, Or.inr ⟨Or.inr rfl, rfl⟩⟩
  exact ⟨fun p hp => (hmain p hp).1, fun p hp => (hmain p hp).2⟩

/-- Claim C8 witness: truncating `[(0,0),(2,2)]` to `[0, 1]` — every output
point lies in `[0, 1]` and the synthesized boundary point at `X = 1`
interpolates the curve. -/
theorem c8_truncate_bounds_boundary_w :
    (∀ p ∈ truncate [mkPt 0 0, mkPt 2 2] (.fin 0) (.fin 1),
      (0 : ℚ) ≤ toQ p.x ∧ toQ p.x ≤ 1) ∧
    (∀ p ∈ truncate [mkPt 0 0, mkPt 2 2] (.fin 0) (.fin 1),
      (∃ q ∈ [mkPt 0 0, mkPt 2 2], p = stripF q) ∨
      ((toQ p.x = 0 ∨ toQ p.x = 1) ∧
        toQ p.y = evalP (pairsQ [mkPt 0 0, mkPt 2 2]) (toQ p.x))) :=
  c8_truncate_bounds_boundary [mkPt 0 0, mkPt 2 2] 0 1
    (by with_unfolding_all decide)
    (by
      simp only [MonoC, List.chain'_cons, List.chain'_singleton, leX, mkPt, toQ, and_true]
      norm_num)
    (by norm_num)

end PWL
